import Mathlib

/-!
Verification of the tic-tac-toe adversarial-search notebooks
(minimax, alpha-beta pruning, priority move ordering, and the depth-1
UCB1 Monte-Carlo engine) by a shallow embedding of the Python source.

Embedding conventions:
* a board is a list of cells (`' '`, `'x'`, `'o'` become `Cell.e`,
  `Cell.cx`, `Cell.co`); the Python notebooks use length-9 lists;
* players are the two marks (`'x'`/`'o'`), the only values the
  notebooks ever pass for the `player` argument;
* utilities are integers; the minimax/alpha-beta running values, which
  in Python range over integers together with `-math.inf`/`+math.inf`,
  live in `WithBot (WithTop ℤ)` where `⊥` models `-inf` and `⊤` models
  `+inf`;
* the Python recursions terminate because every recursive call fills one
  empty cell; the embedding makes this explicit with a structural fuel
  argument, and the top-level entry points pass the exact bound
  `countEmpty board + 1` (a fuel-independence theorem shows any larger
  fuel gives the same result);
* the process-global node counter `COUNT` (reset at the start of each
  top-level search and incremented once per `max_value`/`min_value`
  call) is threaded through results as the field `cnt`;
* `None` results (absent move) are `Option.none`; a Python exception
  (`max()` of an empty sequence in the Monte-Carlo engine) is modelled
  by an `Option.none` result of the whole call;
* the floating-point UCB1 scores of the Monte-Carlo engine are modelled
  abstractly by an arbitrary linearly ordered score type together with
  an arbitrary score function: none of the claims below depend on the
  numeric value of a score, only on how the engine uses the score list;
* the `np.random` sources are modelled by explicit streams of naturals
  (`choice` of a list picks the stream value modulo the list length).
-/

set_option maxRecDepth 8000

namespace TicTacToe

/-- Cell values of the board vector: `' '`, `'x'`, `'o'`. -/
inductive Cell : Type where
  | e : Cell
  | cx : Cell
  | co : Cell
deriving DecidableEq, Repr

/-- A board is the Python list of cells (the notebooks use length 9). -/
abbrev Board := List Cell

/-- `empty_board()` returns `[' '] * 9`. -/
def empty_board : Board := List.replicate 9 Cell.e

/-- The two player symbols `'x'` and `'o'`. -/
inductive Player : Type where
  | px : Player
  | po : Player
deriving DecidableEq, Repr

/-- `other(player)`: `'o'` for `'x'` and `'x'` otherwise. -/
def other : Player → Player
  | Player.px => Player.po
  | Player.po => Player.px

/-- The mark a player places on the board. -/
def Player.mark : Player → Cell
  | Player.px => Cell.cx
  | Player.po => Cell.co

/-- Cell lookup `board[i]` (indices used by the notebook are 0..8). -/
def cellAt (b : Board) (i : ℕ) : Cell := b.getD i Cell.e

/-- The eight winning lines, in exactly the order `check_win` scans them:
the three rows of the 3x3 reshape, the three rows of its transpose
(the columns), then the two diagonals. -/
def winLines : List (ℕ × ℕ × ℕ) :=
  [(0, 1, 2), (3, 4, 5), (6, 7, 8),
   (0, 3, 6), (1, 4, 7), (2, 5, 8),
   (0, 4, 8), (2, 4, 6)]

/-- A line's owner: `some c` when all three cells carry the same
non-empty mark `c` (Python: `len(set(row)) == 1 and row[0] != ' '`). -/
def lineOwner (b : Board) (l : ℕ × ℕ × ℕ) : Option Cell :=
  if cellAt b l.1 ≠ Cell.e ∧ cellAt b l.2.1 = cellAt b l.1 ∧
      cellAt b l.2.2 = cellAt b l.1 then
    some (cellAt b l.1)
  else
    none

/-- Result of `check_win`: `'x'`, `'o'`, `'d'` (draw), `'n'` (next move). -/
inductive Winner : Type where
  | wx : Winner
  | wo : Winner
  | wd : Winner
  | wn : Winner
deriving DecidableEq, Repr

/-- `check_win(board)`: first winning line's mark if any, else `'d'`
when no empty cell remains, else `'n'`. -/
def check_win (b : Board) : Winner :=
  match (winLines.filterMap (lineOwner b)).head? with
  | some Cell.cx => Winner.wx
  | some Cell.co => Winner.wo
  | some Cell.e => Winner.wn
  | none => if b.count Cell.e < 1 then Winner.wd else Winner.wn

/-- `is_terminal(state)`: `check_win(state) != 'n'`. -/
def is_terminal (b : Board) : Bool := decide (check_win b ≠ Winner.wn)

/-- `get_actions(board)` (natural-order version): the indices of the
empty cells, ascending. -/
def get_actions (b : Board) : List ℕ :=
  (List.range b.length).filter (fun i => decide (cellAt b i = Cell.e))

/-- `result(state, player, action)`: a copy of the board with the
action's cell set to the player's mark.  The reference code only logs a
diagnostic when the cell is occupied and proceeds anyway, so the
function is total and can overwrite an occupied cell (see the claim
about `IllegalMove`). -/
def result (state : Board) (player : Player) (action : ℕ) : Board :=
  state.set action player.mark

/-- Whether `result` takes its `state[action] != ' '` branch, i.e. logs
`Error: Illegal move!` before overwriting the cell anyway. -/
def illegal_move_logged (state : Board) (action : ℕ) : Bool :=
  decide (cellAt state action ≠ Cell.e)

/-- `check_win(state)` translated to the comparison `goal == player`. -/
def winnerIs : Winner → Player → Bool
  | Winner.wx, Player.px => true
  | Winner.wo, Player.po => true
  | _, _ => false

/-- `utility(state, player)`: `+1` if the player has won, `0` on a
draw, `-1` if the opponent has won, `None` (non-terminal) otherwise. -/
def utility (state : Board) (player : Player) : Option ℤ :=
  let goal := check_win state
  if winnerIs goal player then some 1
  else if goal = Winner.wd then some 0
  else if winnerIs goal (other player) then some (-1)
  else none

/-- Number of empty cells; the measure that shrinks at each move. -/
def countEmpty (b : Board) : ℕ := b.count Cell.e

/-- Search values: integers extended with `-math.inf` (`⊥`) and
`+math.inf` (`⊤`). -/
abbrev V := WithBot (WithTop ℤ)

/-- An integer utility viewed as a search value. -/
def VInt (u : ℤ) : V := ((u : WithTop ℤ) : V)

/-- Result of one `max_value`/`min_value` call: the value `v`, the move
`m` (`None` on terminal states), and the number of node visits `cnt`
this call contributed to the global counter `COUNT`. -/
structure MRes where
  v : V
  m : Option ℕ
  cnt : ℕ
deriving DecidableEq, Repr

/-- One iteration of the `max_value` action loop: evaluate the child
through `ce`, keep the move on a strict improvement
(`if v2 > v: v, move = v2, a`), and accumulate the visit count. -/
def mmMaxStep (ce : ℕ → MRes) (acc : MRes) (a : ℕ) : MRes :=
  if acc.v < (ce a).v then ⟨(ce a).v, some a, acc.cnt + (ce a).cnt⟩
  else ⟨acc.v, acc.m, acc.cnt + (ce a).cnt⟩

/-- One iteration of the `min_value` action loop (strictly smaller
child values win). -/
def mmMinStep (ce : ℕ → MRes) (acc : MRes) (a : ℕ) : MRes :=
  if (ce a).v < acc.v then ⟨(ce a).v, some a, acc.cnt + (ce a).cnt⟩
  else ⟨acc.v, acc.m, acc.cnt + (ce a).cnt⟩

/-- The mutually recursive `max_value` (`isMax = true`) and `min_value`
(`isMax = false`) of the minimax notebook, embedded as the two phases of
one function that is structural in the fuel.  A call
* returns `(utility(state, player), None)` on terminal states,
* otherwise folds the action loop starting from `-inf` (resp. `+inf`),
  `max_value` generating children with the player's mark and
  `min_value` with the opponent's mark.
The fuel-0 branch is unreachable whenever `countEmpty state < fuel`
(see the fuel-sufficiency theorem below). -/
def mmx : ℕ → Bool → Board → Player → MRes
  | 0, _, _, _ => ⟨⊥, none, 0⟩
  | fuel + 1, isMax, state, player =>
    match utility state player with
    | some u => ⟨VInt u, none, 1⟩
    | none =>
      match isMax with
      | true =>
        (get_actions state).foldl
          (mmMaxStep (fun a => mmx fuel false (result state player a) player))
          ⟨⊥, none, 1⟩
      | false =>
        (get_actions state).foldl
          (mmMinStep (fun a => mmx fuel true (result state (other player) a) player))
          ⟨⊤, none, 1⟩

/-- `max_value(state, player)` run with exactly enough fuel. -/
def max_value (state : Board) (player : Player) : MRes :=
  mmx (countEmpty state + 1) true state player

/-- `min_value(state, player)` run with exactly enough fuel. -/
def min_value (state : Board) (player : Player) : MRes :=
  mmx (countEmpty state + 1) false state player

/-- `minimax_search(board, player)`: resets the node counter and calls
`max_value`; the dictionary `{move, value}` and the final counter are
the fields of the returned record. -/
def minimax_search (board : Board) (player : Player) : MRes :=
  max_value board player

/-- One iteration of the `max_value_ab` action loop.  The fold state is
`(current best, current alpha, returned-early flag)`; the child is
evaluated at the current `(alpha, beta)` window, `alpha` is raised on a
strict improvement, and the loop returns as soon as `v >= beta`. -/
def abMaxStep (ce : V → ℕ → MRes) (beta : V) (st : MRes × V × Bool) (a : ℕ) :
    MRes × V × Bool :=
  if st.2.2 then st
  else if st.1.v < (ce st.2.1 a).v then
    ⟨⟨(ce st.2.1 a).v, some a, st.1.cnt + (ce st.2.1 a).cnt⟩,
      max st.2.1 (ce st.2.1 a).v, decide (beta ≤ (ce st.2.1 a).v)⟩
  else
    ⟨⟨st.1.v, st.1.m, st.1.cnt + (ce st.2.1 a).cnt⟩, st.2.1,
      decide (beta ≤ st.1.v)⟩

/-- One iteration of the `min_value_ab` action loop (mirror image:
`beta` is lowered, the loop returns as soon as `v <= alpha`). -/
def abMinStep (ce : V → ℕ → MRes) (alpha : V) (st : MRes × V × Bool) (a : ℕ) :
    MRes × V × Bool :=
  if st.2.2 then st
  else if (ce st.2.1 a).v < st.1.v then
    ⟨⟨(ce st.2.1 a).v, some a, st.1.cnt + (ce st.2.1 a).cnt⟩,
      min st.2.1 (ce st.2.1 a).v, decide ((ce st.2.1 a).v ≤ alpha)⟩
  else
    ⟨⟨st.1.v, st.1.m, st.1.cnt + (ce st.2.1 a).cnt⟩, st.2.1,
      decide (st.1.v ≤ alpha)⟩

/-- The mutually recursive `max_value_ab` (`isMax = true`) and
`min_value_ab` (`isMax = false`) of the alpha-beta notebook, embedded
like `mmx`; the early `return` inside the Python loop is the flag
component of the fold state, which freezes the accumulator. -/
def abx : ℕ → Bool → Board → Player → V → V → MRes
  | 0, _, _, _, _, _ => ⟨⊥, none, 0⟩
  | fuel + 1, isMax, state, player, alpha, beta =>
    match utility state player with
    | some u => ⟨VInt u, none, 1⟩
    | none =>
      match isMax with
      | true =>
        ((get_actions state).foldl
          (abMaxStep
            (fun al a => abx fuel false (result state player a) player al beta)
            beta)
          ⟨⟨⊥, none, 1⟩, alpha, false⟩).1
      | false =>
        ((get_actions state).foldl
          (abMinStep
            (fun be a => abx fuel true (result state (other player) a) player alpha be)
            alpha)
          ⟨⟨⊤, none, 1⟩, beta, false⟩).1

/-- `max_value_ab(state, player, alpha, beta)` with exactly enough fuel. -/
def max_value_ab (state : Board) (player : Player) (alpha beta : V) : MRes :=
  abx (countEmpty state + 1) true state player alpha beta

/-- `min_value_ab(state, player, alpha, beta)` with exactly enough fuel. -/
def min_value_ab (state : Board) (player : Player) (alpha beta : V) : MRes :=
  abx (countEmpty state + 1) false state player alpha beta

/-- `alpha_beta_search(board, player)`: resets the node counter and
calls `max_value_ab(board, player, -inf, +inf)`. -/
def alpha_beta_search (board : Board) (player : Player) : MRes :=
  max_value_ab board player ⊥ ⊤

/-- The fail-soft alpha-beta contract relating a pruned value `r` to
the exact minimax value `t` over the window `(lo, hi)`: a fail-low
result bounds the exact value from above, an in-window result is exact,
and a fail-high result bounds it from below. -/
def KMrel (lo hi r t : V) : Prop :=
  (r ≤ lo → t ≤ r) ∧ (lo < r → r < hi → r = t) ∧ (hi ≤ r → r ≤ t)

/-- The priority weights of the move-reordering `get_actions`:
corners and center over edges, center highest. -/
def prio (i : ℕ) : ℕ := [1, 0, 1, 0, 2, 0, 1, 0, 1].getD i 0

/-- `a` may precede `b` in `sorted(zip(priority, actions), reverse=True)`:
descending lexicographic order on the pairs `(priority, action)`.  The
keys of distinct actions are distinct, so any sort by this total order
agrees with Python's stable descending sort. -/
def priGE (a b : ℕ) : Prop := prio b < prio a ∨ (prio b = prio a ∧ b ≤ a)

instance : DecidableRel priGE := fun a b => by
  unfold priGE; infer_instance

/-- The reordering `get_actions` of the move-ordering section: the empty
cell indices sorted by descending `(priority, index)`. -/
def get_actions_pri (b : Board) : List ℕ :=
  List.insertionSort priGE (get_actions b)

instance : IsTotal ℕ priGE :=
  ⟨by intro a b; unfold priGE; omega⟩

instance : IsTrans ℕ priGE :=
  ⟨by intro a b c; unfold priGE; omega⟩

instance : IsAntisymm ℕ priGE :=
  ⟨by intro a b; unfold priGE; omega⟩

/-- Specification-side notion of "the maximizing player can force a
final utility of at least `t` under optimal play": at the maximizer's
turn (`isMax = true`) some legal action forces it, at the opponent's
turn every legal action forces it; at a terminal state the utility must
already be at least `t`.  Modelled from the spec's guarantee that the
returned value is the true game-theoretic value under optimal play by
both sides; fueled like `mmx`. -/
def frc : ℕ → Bool → Board → Player → ℤ → Bool
  | 0, _, _, _, _ => false
  | fuel + 1, isMax, s, p, t =>
    match utility s p with
    | some u => decide (t ≤ u)
    | none =>
      match isMax with
      | true => (get_actions s).any (fun a => frc fuel false (result s p a) p t)
      | false => (get_actions s).all (fun a => frc fuel true (result s (other p) a) p t)

/-- Dual notion: "the minimizing opponent can hold the final utility to
at most `t` under optimal play" (the maximizer cannot exceed `t`). -/
def cap : ℕ → Bool → Board → Player → ℤ → Bool
  | 0, _, _, _, _ => false
  | fuel + 1, isMax, s, p, t =>
    match utility s p with
    | some u => decide (u ≤ t)
    | none =>
      match isMax with
      | true => (get_actions s).all (fun a => cap fuel false (result s p a) p t)
      | false => (get_actions s).any (fun a => cap fuel true (result s (other p) a) p t)

/-- Maximizer to move can force utility `≥ t`. -/
def maxForceB (s : Board) (p : Player) (t : ℤ) : Bool :=
  frc (countEmpty s + 1) true s p t

/-- Opponent to move: maximizer can still force utility `≥ t`. -/
def minForceB (s : Board) (p : Player) (t : ℤ) : Bool :=
  frc (countEmpty s + 1) false s p t

/-- Maximizer to move: opponent can hold the utility to `≤ t`. -/
def maxCapB (s : Board) (p : Player) (t : ℤ) : Bool :=
  cap (countEmpty s + 1) true s p t

/-- Opponent to move can hold the utility to `≤ t`. -/
def minCapB (s : Board) (p : Player) (t : ℤ) : Bool :=
  cap (countEmpty s + 1) false s p t

/-- The `while True` loop of `playout`: return the utility once the
state is terminal, otherwise apply a randomly chosen legal action for
the current player and continue.  `np.random.choice(actions)` is
modelled by indexing with the random stream modulo the list length.
The second component counts the `result` applications performed by the
loop; the fuel-0 branch is unreachable when `countEmpty state < fuel`. -/
def playoutLoop : ℕ → Board → Player → Player → (ℕ → ℕ) → ℕ → ℤ × ℕ
  | 0, _, _, _, _, _ => (0, 0)
  | fuel + 1, state, current, player, rand, k =>
    match utility state player with
    | some u => (u, 0)
    | none =>
      let acts := get_actions state
      let a := acts.getD (rand k % acts.length) 0
      let r := playoutLoop fuel (result state current a) (other current) player rand (k + 1)
      (r.1, r.2 + 1)

/-- `playout(state, action, player)`: apply the given action for the
player, then alternate random moves until the game ends, returning the
utility of the finished game (first component).  The second component
instruments the total number of `result` applications. -/
def playout (state : Board) (action : ℕ) (player : Player) (rand : ℕ → ℕ) : ℤ × ℕ :=
  let s1 := result state player action
  let r := playoutLoop (countEmpty s1 + 1) s1 (other player) player rand 0
  (r.1, r.2 + 1)

/-- First index of the greatest element, Python's `l.index(max(l))`;
`none` models the `ValueError` that `max` raises on an empty sequence. -/
def idxMaxAux {S : Type} [LinearOrder S] (best : S) (bi i : ℕ) : List S → ℕ
  | [] => bi
  | x :: xs => if best < x then idxMaxAux x i (i + 1) xs else idxMaxAux best bi (i + 1) xs

/-- `l.index(max(l))` as an option. -/
def idxOfMax {S : Type} [LinearOrder S] : List S → Option ℕ
  | [] => none
  | x :: xs => some (idxMaxAux x 0 1 xs)

/-- Per-invocation statistics of `UCT_depth1`: total utilities `u`,
playout counts `n`, total playouts `np` (the parent count), and current
UCB1 scores `ucb`, all indexed like the action list. -/
structure UCTSt (S : Type) where
  u : List ℤ
  n : List ℕ
  np : ℕ
  ucb : List S

/-- One iteration of the `UCT_depth1` budget loop: select the action
with the highest UCB1 score (`none` models the `ValueError` of `max`
on an empty sequence), simulate a playout through it, then update the
statistics and recompute UCB1 for every action with at least one
playout.  The score type `S`, the initial score `inf` (`+math.inf`) and
the score function `ucb1` abstract the floating-point UCB1 formula
`u/n + C*sqrt(log(np)/n)`, on whose numeric values no claim depends. -/
def UCT_step {S : Type} [LinearOrder S] (board : Board) (player : Player)
    (inf : S) (ucb1 : ℤ → ℕ → ℕ → S) (actions : List ℕ) (rands : ℕ → ℕ → ℕ)
    (st : UCTSt S) (i : ℕ) : Option (UCTSt S) :=
  match idxOfMax st.ucb with
  | none => none
  | some aid =>
    let pl := (playout board (actions.getD aid 0) player (rands i)).1
    let u' := st.u.set aid (st.u.getD aid 0 + pl)
    let n' := st.n.set aid (st.n.getD aid 0 + 1)
    let np' := st.np + 1
    let ucb' := (List.range actions.length).map
      (fun j => if 0 < n'.getD j 0 then ucb1 (u'.getD j 0) (n'.getD j 0) np' else st.ucb.getD j inf)
    some ⟨u', n', np', ucb'⟩

/-- The budget loop of `UCT_depth1`, run for `range(N)` iterations
(empty for a non-positive budget, as in Python) from the all-zero
statistics with every UCB1 score at `+inf`. -/
def UCT_core {S : Type} [LinearOrder S] (board : Board) (N : ℤ) (player : Player)
    (inf : S) (ucb1 : ℤ → ℕ → ℕ → S) (rands : ℕ → ℕ → ℕ) : Option (UCTSt S) :=
  let actions := get_actions board
  (List.range N.toNat).foldl
    (fun ost i => ost.bind (fun st => UCT_step board player inf ucb1 actions rands st i))
    (some ⟨List.replicate actions.length 0, List.replicate actions.length 0, 0,
           List.replicate actions.length inf⟩)

/-- `UCT_depth1(board, N, player)`: run the budget loop, then return
the action with the largest number of playouts
(`actions[n.index(max(n))]`); `none` models an uncaught `ValueError`. -/
def UCT_depth1 {S : Type} [LinearOrder S] (board : Board) (N : ℤ) (player : Player)
    (inf : S) (ucb1 : ℤ → ℕ → ℕ → S) (rands : ℕ → ℕ → ℕ) : Option ℕ :=
  (UCT_core board N player inf ucb1 rands).bind fun st =>
    (idxOfMax st.n).map (fun j => (get_actions board).getD j 0)

/-- The "x is about to win" test board `[x, o, _, o, x, _, _, _, _]`. -/
def specBoardWin : Board :=
  [Cell.cx, Cell.co, Cell.e, Cell.co, Cell.cx, Cell.e, Cell.e, Cell.e, Cell.e]

/-- The "o is about to win" test board `[o, o, _, o, x, _, _, _, x]`. -/
def specBoardLoss : Board :=
  [Cell.co, Cell.co, Cell.e, Cell.co, Cell.cx, Cell.e, Cell.e, Cell.e, Cell.cx]

/-- A full drawn board `[x, o, x, x, o, o, o, x, x]`. -/
def specBoardDraw : Board :=
  [Cell.cx, Cell.co, Cell.cx, Cell.cx, Cell.co, Cell.co, Cell.co, Cell.cx, Cell.cx]

/-- A board whose cell 0 is already occupied by `x`. -/
def specBoardOcc : Board :=
  [Cell.cx, Cell.e, Cell.e, Cell.e, Cell.e, Cell.e, Cell.e, Cell.e, Cell.e]

/-! ### Order facts about search values -/

theorem VInt_lt_iff {a b : ℤ} : VInt a < VInt b ↔ a < b := by
  unfold VInt
  rw [WithBot.coe_lt_coe, WithTop.coe_lt_coe]

theorem VInt_le_iff {a b : ℤ} : VInt a ≤ VInt b ↔ a ≤ b := by
  unfold VInt
  rw [WithBot.coe_le_coe, WithTop.coe_le_coe]

theorem VInt_inj {a b : ℤ} (h : VInt a = VInt b) : a = b := by
  have h1 : VInt a ≤ VInt b := le_of_eq h
  have h2 : VInt b ≤ VInt a := le_of_eq h.symm
  exact le_antisymm (VInt_le_iff.mp h1) (VInt_le_iff.mp h2)

theorem bot_lt_VInt (a : ℤ) : (⊥ : V) < VInt a := WithBot.bot_lt_coe _

theorem VInt_lt_top (a : ℤ) : VInt a < (⊤ : V) := by
  unfold VInt
  rw [show ((⊤ : V)) = (((⊤ : WithTop ℤ) : V)) from rfl, WithBot.coe_lt_coe]
  exact WithTop.coe_lt_top a

theorem VInt_ne_bot (a : ℤ) : VInt a ≠ (⊥ : V) := (bot_lt_VInt a).ne'

theorem VInt_ne_top (a : ℤ) : VInt a ≠ (⊤ : V) := (VInt_lt_top a).ne

theorem V_if_lt_eq_max (x y : V) : (if x < y then y else x) = max x y := by
  rcases le_or_lt y x with h | h
  · simp [not_lt.mpr h, max_eq_left h]
  · simp [h, max_eq_right h.le]

theorem V_if_lt_eq_min (x y : V) : (if x < y then x else y) = min x y := by
  rcases lt_or_le x y with h | h
  · simp [h, min_eq_left h.le]
  · simp [not_lt.mpr h, min_eq_right h]

/-! ### Basic facts about the state model -/

theorem lineOwner_ne_e (b : Board) (l : ℕ × ℕ × ℕ) :
    lineOwner b l ≠ some Cell.e := by
  unfold lineOwner
  split
  · rename_i hcond
    intro h
    exact hcond.1 (Option.some.inj h)
  · simp

theorem check_win_wn_pos {s : Board} (h : check_win s = Winner.wn) :
    0 < countEmpty s := by
  unfold check_win at h
  rcases hh : (winLines.filterMap (lineOwner s)).head? with _ | c
  · rw [hh] at h
    simp only at h
    split at h
    · exact absurd h (by simp)
    · unfold countEmpty; omega
  · rw [hh] at h
    cases c
    · exfalso
      have hin : Cell.e ∈ winLines.filterMap (lineOwner s) :=
        List.mem_of_mem_head? (Option.mem_def.mpr hh)
      obtain ⟨l, _, hl⟩ := List.mem_filterMap.mp hin
      exact lineOwner_ne_e s l hl
    · simp at h
    · simp at h

theorem mem_get_actions {b : Board} {a : ℕ} :
    a ∈ get_actions b ↔ a < b.length ∧ cellAt b a = Cell.e := by
  unfold get_actions
  simp [List.mem_filter, List.mem_range]

theorem utility_none_iff (s : Board) (p : Player) :
    utility s p = none ↔ check_win s = Winner.wn := by
  unfold utility
  cases h : check_win s <;> cases p <;> simp [winnerIs, other]

theorem get_actions_ne_nil {s : Board} {p : Player}
    (h : utility s p = none) : get_actions s ≠ [] := by
  have hw := (utility_none_iff s p).mp h
  have hpos := check_win_wn_pos hw
  unfold countEmpty at hpos
  have hmem : Cell.e ∈ s := List.count_pos_iff.mp hpos
  obtain ⟨n, hn⟩ := List.mem_iff_get.mp hmem
  intro hnil
  have : n.1 ∈ get_actions s := by
    rw [mem_get_actions]
    refine ⟨n.2, ?_⟩
    unfold cellAt
    rw [List.getD_eq_getElem s Cell.e n.2]
    simpa [List.get_eq_getElem] using hn
  rw [hnil] at this
  exact absurd this (List.not_mem_nil _)

theorem mark_ne_e (p : Player) : p.mark ≠ Cell.e := by
  cases p <;> simp [Player.mark]

theorem count_e_set :
    ∀ (b : List Cell) (i : ℕ) (c : Cell), i < b.length →
      b.getD i Cell.e = Cell.e → c ≠ Cell.e →
      (b.set i c).count Cell.e + 1 = b.count Cell.e := by
  intro b
  induction b with
  | nil => intro i c h; simp at h
  | cons hd tl ih =>
    intro i c hlen he hc
    cases i with
    | zero =>
      have hhd : hd = Cell.e := by simpa [List.getD] using he
      subst hhd
      simp [List.count_cons, hc]
    | succ n =>
      have hlen' : n < tl.length := by simpa using hlen
      have he' : tl.getD n Cell.e = Cell.e := by simpa [List.getD] using he
      have := ih n c hlen' he' hc
      simp only [List.set_cons_succ, List.count_cons]
      omega

theorem countEmpty_result {b : Board} {p : Player} {a : ℕ}
    (h : a ∈ get_actions b) :
    countEmpty (result b p a) + 1 = countEmpty b := by
  rw [mem_get_actions] at h
  unfold countEmpty result
  exact count_e_set b a p.mark h.1 h.2 (mark_ne_e p)

theorem countEmpty_result_lt {b : Board} {p : Player} {a : ℕ}
    (h : a ∈ get_actions b) :
    countEmpty (result b p a) < countEmpty b := by
  have := countEmpty_result (p := p) h
  omega

theorem countEmpty_pos {s : Board} {p : Player}
    (h : utility s p = none) : 0 < countEmpty s :=
  check_win_wn_pos ((utility_none_iff s p).mp h)

theorem countEmpty_le_length (b : Board) : countEmpty b ≤ b.length :=
  List.count_le_length Cell.e b

/-! ### Generic fold helpers -/

theorem foldl_congr_mem {α β : Type} :
    ∀ (l : List α) (f g : β → α → β) (i : β),
      (∀ acc a, a ∈ l → f acc a = g acc a) → l.foldl f i = l.foldl g i := by
  intro l
  induction l with
  | nil => intro f g i _; rfl
  | cons x xs ih =>
    intro f g i h
    simp only [List.foldl_cons]
    rw [h i x (by simp)]
    exact ih f g (g i x) (fun acc a ha => h acc a (by simp [ha]))

theorem any_congr_mem {α : Type} :
    ∀ (l : List α) (f g : α → Bool),
      (∀ a ∈ l, f a = g a) → l.any f = l.any g := by
  intro l
  induction l with
  | nil => intro f g _; rfl
  | cons x xs ih =>
    intro f g h
    simp only [List.any_cons]
    rw [h x (by simp), ih f g (fun a ha => h a (by simp [ha]))]

theorem all_congr_mem {α : Type} :
    ∀ (l : List α) (f g : α → Bool),
      (∀ a ∈ l, f a = g a) → l.all f = l.all g := by
  intro l
  induction l with
  | nil => intro f g _; rfl
  | cons x xs ih =>
    intro f g h
    simp only [List.all_cons]
    rw [h x (by simp), ih f g (fun a ha => h a (by simp [ha]))]

/-! ### One-step unfolding of the fueled engines at their exact fuel -/

theorem max_value_eq (s : Board) (p : Player) :
    max_value s p =
      match utility s p with
      | some u => ⟨VInt u, none, 1⟩
      | none =>
        (get_actions s).foldl
          (mmMaxStep (fun a => min_value (result s p a) p)) ⟨⊥, none, 1⟩ := by
  unfold max_value
  rcases h : utility s p with _ | u
  · simp only [mmx, h]
    apply foldl_congr_mem
    intro acc a ha
    have hc := countEmpty_result (p := p) ha
    simp only [mmMaxStep, min_value, hc]
  · simp [mmx, h]

theorem min_value_eq (s : Board) (p : Player) :
    min_value s p =
      match utility s p with
      | some u => ⟨VInt u, none, 1⟩
      | none =>
        (get_actions s).foldl
          (mmMinStep (fun a => max_value (result s (other p) a) p)) ⟨⊤, none, 1⟩ := by
  unfold min_value
  rcases h : utility s p with _ | u
  · simp only [mmx, h]
    apply foldl_congr_mem
    intro acc a ha
    have hc := countEmpty_result (p := other p) ha
    simp only [mmMinStep, max_value, hc]
  · simp [mmx, h]

theorem max_value_ab_eq (s : Board) (p : Player) (alpha beta : V) :
    max_value_ab s p alpha beta =
      match utility s p with
      | some u => ⟨VInt u, none, 1⟩
      | none =>
        ((get_actions s).foldl
          (abMaxStep (fun al a => min_value_ab (result s p a) p al beta) beta)
          ⟨⟨⊥, none, 1⟩, alpha, false⟩).1 := by
  unfold max_value_ab
  rcases h : utility s p with _ | u
  · simp only [abx, h]
    congr 1
    apply foldl_congr_mem
    intro acc a ha
    have hc := countEmpty_result (p := p) ha
    simp only [abMaxStep, min_value_ab, hc]
  · simp [abx, h]

theorem min_value_ab_eq (s : Board) (p : Player) (alpha beta : V) :
    min_value_ab s p alpha beta =
      match utility s p with
      | some u => ⟨VInt u, none, 1⟩
      | none =>
        ((get_actions s).foldl
          (abMinStep (fun be a => max_value_ab (result s (other p) a) p alpha be) alpha)
          ⟨⟨⊤, none, 1⟩, beta, false⟩).1 := by
  unfold min_value_ab
  rcases h : utility s p with _ | u
  · simp only [abx, h]
    congr 1
    apply foldl_congr_mem
    intro acc a ha
    have hc := countEmpty_result (p := other p) ha
    simp only [abMinStep, max_value_ab, hc]
  · simp [abx, h]

/-! ### Fuel independence: the recursion bottoms out within the
number of empty cells, so any sufficient fuel gives the same result -/

theorem mmx_fuel_indep (c : ℕ) :
    ∀ (s : Board) (p : Player) (im : Bool) (f : ℕ), countEmpty s = c → c < f →
      mmx f im s p = mmx (c + 1) im s p := by
  induction c using Nat.strong_induction_on with
  | _ c IH =>
    intro s p im f hc hf
    obtain ⟨f', rfl⟩ : ∃ f', f = f' + 1 := ⟨f - 1, by omega⟩
    rcases h : utility s p with _ | u
    · have hcpos : 0 < c := hc ▸ countEmpty_pos h
      cases im
      · simp only [mmx, h]
        apply foldl_congr_mem
        intro acc a ha
        have hch : countEmpty (result s (other p) a) = c - 1 := by
          have := countEmpty_result (p := other p) ha
          omega
        have h1 := IH (c - 1) (by omega) (result s (other p) a) p true f' hch (by omega)
        have h2 := IH (c - 1) (by omega) (result s (other p) a) p true c hch (by omega)
        simp only [mmMinStep, h1, h2]
      · simp only [mmx, h]
        apply foldl_congr_mem
        intro acc a ha
        have hch : countEmpty (result s p a) = c - 1 := by
          have := countEmpty_result (p := p) ha
          omega
        have h1 := IH (c - 1) (by omega) (result s p a) p false f' hch (by omega)
        have h2 := IH (c - 1) (by omega) (result s p a) p false c hch (by omega)
        simp only [mmMaxStep, h1, h2]
    · simp [mmx, h]

theorem abx_fuel_indep (c : ℕ) :
    ∀ (s : Board) (p : Player) (im : Bool) (alpha beta : V) (f : ℕ),
      countEmpty s = c → c < f →
      abx f im s p alpha beta = abx (c + 1) im s p alpha beta := by
  induction c using Nat.strong_induction_on with
  | _ c IH =>
    intro s p im alpha beta f hc hf
    obtain ⟨f', rfl⟩ : ∃ f', f = f' + 1 := ⟨f - 1, by omega⟩
    rcases h : utility s p with _ | u
    · have hcpos : 0 < c := hc ▸ countEmpty_pos h
      cases im
      · simp only [abx, h]
        congr 1
        apply foldl_congr_mem
        intro acc a ha
        have hch : countEmpty (result s (other p) a) = c - 1 := by
          have := countEmpty_result (p := other p) ha
          omega
        have h1 : ∀ al be : V,
            abx f' true (result s (other p) a) p al be =
              abx (c - 1 + 1) true (result s (other p) a) p al be :=
          fun al be => IH (c - 1) (by omega) _ p true al be f' hch (by omega)
        have h2 : ∀ al be : V,
            abx c true (result s (other p) a) p al be =
              abx (c - 1 + 1) true (result s (other p) a) p al be :=
          fun al be => IH (c - 1) (by omega) _ p true al be c hch (by omega)
        simp only [abMinStep, h1, h2]
      · simp only [abx, h]
        congr 1
        apply foldl_congr_mem
        intro acc a ha
        have hch : countEmpty (result s p a) = c - 1 := by
          have := countEmpty_result (p := p) ha
          omega
        have h1 : ∀ al be : V,
            abx f' false (result s p a) p al be =
              abx (c - 1 + 1) false (result s p a) p al be :=
          fun al be => IH (c - 1) (by omega) _ p false al be f' hch (by omega)
        have h2 : ∀ al be : V,
            abx c false (result s p a) p al be =
              abx (c - 1 + 1) false (result s p a) p al be :=
          fun al be => IH (c - 1) (by omega) _ p false al be c hch (by omega)
        simp only [abMaxStep, h1, h2]
    · simp [abx, h]

/-! ### foldl-max / foldl-min helpers over search values -/

theorem foldl_max_init_le {α : Type} (f : α → V) :
    ∀ (l : List α) (i : V), i ≤ l.foldl (fun w a => max w (f a)) i := by
  intro l
  induction l with
  | nil => intro i; exact le_refl i
  | cons x xs ih =>
    intro i
    simp only [List.foldl_cons]
    exact le_trans (le_max_left i (f x)) (ih _)

theorem foldl_max_le_of_mem {α : Type} (f : α → V) :
    ∀ (l : List α) (i : V) (a : α), a ∈ l →
      f a ≤ l.foldl (fun w a => max w (f a)) i := by
  intro l
  induction l with
  | nil => intro i a ha; exact absurd ha (List.not_mem_nil a)
  | cons x xs ih =>
    intro i a ha
    simp only [List.foldl_cons]
    rcases List.mem_cons.mp ha with rfl | ha'
    · exact le_trans (le_max_right i (f a)) (foldl_max_init_le f xs _)
    · exact ih _ a ha'

theorem foldl_max_cases {α : Type} (f : α → V) :
    ∀ (l : List α) (i : V),
      l.foldl (fun w a => max w (f a)) i = i ∨
        ∃ a ∈ l, l.foldl (fun w a => max w (f a)) i = f a := by
  intro l
  induction l with
  | nil => intro i; left; rfl
  | cons x xs ih =>
    intro i
    simp only [List.foldl_cons]
    rcases ih (max i (f x)) with h | ⟨a, ha, h⟩
    · rcases max_cases i (f x) with ⟨he, _⟩ | ⟨he, _⟩
      · left; rw [h, he]
      · right; exact ⟨x, by simp, by rw [h, he]⟩
    · right; exact ⟨a, by simp [ha], h⟩

theorem foldl_max_mono {α : Type} (f : α → V) :
    ∀ (l : List α) (i j : V), i ≤ j →
      l.foldl (fun w a => max w (f a)) i ≤ l.foldl (fun w a => max w (f a)) j := by
  intro l
  induction l with
  | nil => intro i j h; exact h
  | cons x xs ih =>
    intro i j h
    simp only [List.foldl_cons]
    exact ih _ _ (max_le_max h (le_refl (f x)))

theorem foldl_max_absorb {α : Type} (f : α → V) :
    ∀ (l : List α) (x y : V),
      l.foldl (fun w a => max w (f a)) (max x y) =
        max x (l.foldl (fun w a => max w (f a)) y) := by
  intro l
  induction l with
  | nil => intro x y; rfl
  | cons z zs ih =>
    intro x y
    simp only [List.foldl_cons]
    rw [max_assoc, ih]

theorem foldl_min_le_init {α : Type} (f : α → V) :
    ∀ (l : List α) (i : V), l.foldl (fun w a => min w (f a)) i ≤ i := by
  intro l
  induction l with
  | nil => intro i; exact le_refl i
  | cons x xs ih =>
    intro i
    simp only [List.foldl_cons]
    exact le_trans (ih _) (min_le_left i (f x))

theorem foldl_min_le_of_mem {α : Type} (f : α → V) :
    ∀ (l : List α) (i : V) (a : α), a ∈ l →
      l.foldl (fun w a => min w (f a)) i ≤ f a := by
  intro l
  induction l with
  | nil => intro i a ha; exact absurd ha (List.not_mem_nil a)
  | cons x xs ih =>
    intro i a ha
    simp only [List.foldl_cons]
    rcases List.mem_cons.mp ha with rfl | ha'
    · exact le_trans (foldl_min_le_init f xs _) (min_le_right i (f a))
    · exact ih _ a ha'

theorem foldl_min_cases {α : Type} (f : α → V) :
    ∀ (l : List α) (i : V),
      l.foldl (fun w a => min w (f a)) i = i ∨
        ∃ a ∈ l, l.foldl (fun w a => min w (f a)) i = f a := by
  intro l
  induction l with
  | nil => intro i; left; rfl
  | cons x xs ih =>
    intro i
    simp only [List.foldl_cons]
    rcases ih (min i (f x)) with h | ⟨a, ha, h⟩
    · rcases min_cases i (f x) with ⟨he, _⟩ | ⟨he, _⟩
      · left; rw [h, he]
      · right; exact ⟨x, by simp, by rw [h, he]⟩
    · right; exact ⟨a, by simp [ha], h⟩

theorem foldl_min_mono {α : Type} (f : α → V) :
    ∀ (l : List α) (i j : V), i ≤ j →
      l.foldl (fun w a => min w (f a)) i ≤ l.foldl (fun w a => min w (f a)) j := by
  intro l
  induction l with
  | nil => intro i j h; exact h
  | cons x xs ih =>
    intro i j h
    simp only [List.foldl_cons]
    exact ih _ _ (min_le_min h (le_refl (f x)))

theorem foldl_min_absorb {α : Type} (f : α → V) :
    ∀ (l : List α) (x y : V),
      l.foldl (fun w a => min w (f a)) (min x y) =
        min x (l.foldl (fun w a => min w (f a)) y) := by
  intro l
  induction l with
  | nil => intro x y; rfl
  | cons z zs ih =>
    intro x y
    simp only [List.foldl_cons]
    rw [min_assoc, ih]

/-! ### Properties of the minimax loop steps and folds -/

theorem mmMaxStep_v (ce : ℕ → MRes) (acc : MRes) (a : ℕ) :
    (mmMaxStep ce acc a).v = max acc.v (ce a).v := by
  unfold mmMaxStep
  split
  · rename_i h; exact (max_eq_right (le_of_lt h)).symm
  · rename_i h; exact (max_eq_left (not_lt.mp h)).symm

theorem mmMinStep_v (ce : ℕ → MRes) (acc : MRes) (a : ℕ) :
    (mmMinStep ce acc a).v = min acc.v (ce a).v := by
  unfold mmMinStep
  split
  · rename_i h; exact (min_eq_right (le_of_lt h)).symm
  · rename_i h; exact (min_eq_left (not_lt.mp h)).symm

theorem mmMaxStep_cnt (ce : ℕ → MRes) (acc : MRes) (a : ℕ) :
    (mmMaxStep ce acc a).cnt = acc.cnt + (ce a).cnt := by
  unfold mmMaxStep
  split <;> rfl

theorem mmMinStep_cnt (ce : ℕ → MRes) (acc : MRes) (a : ℕ) :
    (mmMinStep ce acc a).cnt = acc.cnt + (ce a).cnt := by
  unfold mmMinStep
  split <;> rfl

theorem mm_max_fold_v (ce : ℕ → MRes) :
    ∀ (l : List ℕ) (acc : MRes),
      (l.foldl (mmMaxStep ce) acc).v =
        l.foldl (fun w a => max w (ce a).v) acc.v := by
  intro l
  induction l with
  | nil => intro acc; rfl
  | cons x xs ih =>
    intro acc
    simp only [List.foldl_cons]
    rw [ih, mmMaxStep_v]

theorem mm_min_fold_v (ce : ℕ → MRes) :
    ∀ (l : List ℕ) (acc : MRes),
      (l.foldl (mmMinStep ce) acc).v =
        l.foldl (fun w a => min w (ce a).v) acc.v := by
  intro l
  induction l with
  | nil => intro acc; rfl
  | cons x xs ih =>
    intro acc
    simp only [List.foldl_cons]
    rw [ih, mmMinStep_v]

theorem mm_max_fold_cnt (ce : ℕ → MRes) :
    ∀ (l : List ℕ) (acc : MRes),
      (l.foldl (mmMaxStep ce) acc).cnt =
        acc.cnt + (l.map (fun a => (ce a).cnt)).sum := by
  intro l
  induction l with
  | nil => intro acc; simp
  | cons x xs ih =>
    intro acc
    simp only [List.foldl_cons, List.map_cons, List.sum_cons]
    rw [ih, mmMaxStep_cnt]
    omega

theorem mm_min_fold_cnt (ce : ℕ → MRes) :
    ∀ (l : List ℕ) (acc : MRes),
      (l.foldl (mmMinStep ce) acc).cnt =
        acc.cnt + (l.map (fun a => (ce a).cnt)).sum := by
  intro l
  induction l with
  | nil => intro acc; simp
  | cons x xs ih =>
    intro acc
    simp only [List.foldl_cons, List.map_cons, List.sum_cons]
    rw [ih, mmMinStep_cnt]
    omega

theorem mm_max_fold_good (ce : ℕ → MRes) (Q : ℕ → Prop) :
    ∀ (l : List ℕ) (acc : MRes), (∀ a ∈ l, Q a) →
      (∀ a₀, acc.m = some a₀ → Q a₀ ∧ (ce a₀).v = acc.v) →
      ∀ a₀, (l.foldl (mmMaxStep ce) acc).m = some a₀ →
        Q a₀ ∧ (ce a₀).v = (l.foldl (mmMaxStep ce) acc).v := by
  intro l
  induction l with
  | nil => intro acc _ hacc; exact hacc
  | cons x xs ih =>
    intro acc hQ hacc
    simp only [List.foldl_cons]
    apply ih
    · intro a ha; exact hQ a (by simp [ha])
    · intro a₀ hm
      unfold mmMaxStep at hm ⊢
      split at hm
      · rename_i hlt
        simp only at hm
        cases hm
        refine ⟨hQ x (by simp), ?_⟩
        split
        · rfl
        · rename_i hnot; exact absurd hlt hnot
      · rename_i hnot
        simp only at hm
        have := hacc a₀ hm
        refine ⟨this.1, ?_⟩
        split
        · rename_i hlt; exact absurd hlt hnot
        · exact this.2

theorem mm_min_fold_good (ce : ℕ → MRes) (Q : ℕ → Prop) :
    ∀ (l : List ℕ) (acc : MRes), (∀ a ∈ l, Q a) →
      (∀ a₀, acc.m = some a₀ → Q a₀ ∧ (ce a₀).v = acc.v) →
      ∀ a₀, (l.foldl (mmMinStep ce) acc).m = some a₀ →
        Q a₀ ∧ (ce a₀).v = (l.foldl (mmMinStep ce) acc).v := by
  intro l
  induction l with
  | nil => intro acc _ hacc; exact hacc
  | cons x xs ih =>
    intro acc hQ hacc
    simp only [List.foldl_cons]
    apply ih
    · intro a ha; exact hQ a (by simp [ha])
    · intro a₀ hm
      unfold mmMinStep at hm ⊢
      split at hm
      · rename_i hlt
        simp only at hm
        cases hm
        refine ⟨hQ x (by simp), ?_⟩
        split
        · rfl
        · rename_i hnot; exact absurd hlt hnot
      · rename_i hnot
        simp only at hm
        have := hacc a₀ hm
        refine ⟨this.1, ?_⟩
        split
        · rename_i hlt; exact absurd hlt hnot
        · exact this.2

theorem mm_max_fold_m_isSome (ce : ℕ → MRes) :
    ∀ (l : List ℕ) (acc : MRes), acc.m.isSome →
      (l.foldl (mmMaxStep ce) acc).m.isSome := by
  intro l
  induction l with
  | nil => intro acc h; exact h
  | cons x xs ih =>
    intro acc h
    simp only [List.foldl_cons]
    apply ih
    unfold mmMaxStep
    split
    · rfl
    · exact h

theorem mm_min_fold_m_isSome (ce : ℕ → MRes) :
    ∀ (l : List ℕ) (acc : MRes), acc.m.isSome →
      (l.foldl (mmMinStep ce) acc).m.isSome := by
  intro l
  induction l with
  | nil => intro acc h; exact h
  | cons x xs ih =>
    intro acc h
    simp only [List.foldl_cons]
    apply ih
    unfold mmMinStep
    split
    · rfl
    · exact h

theorem mm_max_fold_some (ce : ℕ → MRes) (l : List ℕ) (acc : MRes)
    (hl : l ≠ []) (hv : acc.v = ⊥) (hne : ∀ a ∈ l, (ce a).v ≠ ⊥) :
    (l.foldl (mmMaxStep ce) acc).m.isSome := by
  cases l with
  | nil => exact absurd rfl hl
  | cons x xs =>
    simp only [List.foldl_cons]
    apply mm_max_fold_m_isSome
    unfold mmMaxStep
    have : acc.v < (ce x).v := by
      rw [hv]
      exact bot_lt_iff_ne_bot.mpr (hne x (by simp))
    rw [if_pos this]
    rfl

theorem mm_min_fold_some (ce : ℕ → MRes) (l : List ℕ) (acc : MRes)
    (hl : l ≠ []) (hv : acc.v = ⊤) (hne : ∀ a ∈ l, (ce a).v ≠ ⊤) :
    (l.foldl (mmMinStep ce) acc).m.isSome := by
  cases l with
  | nil => exact absurd rfl hl
  | cons x xs =>
    simp only [List.foldl_cons]
    apply mm_min_fold_m_isSome
    unfold mmMinStep
    have : (ce x).v < acc.v := by
      rw [hv]
      exact lt_top_iff_ne_top.mpr (hne x (by simp))
    rw [if_pos this]
    rfl

/-! ### Unfolding and monotonicity of the optimal-play predicates -/

theorem maxForceB_eq (s : Board) (p : Player) (t : ℤ) :
    maxForceB s p t =
      match utility s p with
      | some u => decide (t ≤ u)
      | none => (get_actions s).any (fun a => minForceB (result s p a) p t) := by
  unfold maxForceB
  rcases h : utility s p with _ | u
  · simp only [frc, h]
    apply any_congr_mem
    intro a ha
    have hc := countEmpty_result (p := p) ha
    simp only [minForceB, hc]
  · simp [frc, h]

theorem minForceB_eq (s : Board) (p : Player) (t : ℤ) :
    minForceB s p t =
      match utility s p with
      | some u => decide (t ≤ u)
      | none => (get_actions s).all (fun a => maxForceB (result s (other p) a) p t) := by
  unfold minForceB
  rcases h : utility s p with _ | u
  · simp only [frc, h]
    apply all_congr_mem
    intro a ha
    have hc := countEmpty_result (p := other p) ha
    simp only [maxForceB, hc]
  · simp [frc, h]

theorem maxCapB_eq (s : Board) (p : Player) (t : ℤ) :
    maxCapB s p t =
      match utility s p with
      | some u => decide (u ≤ t)
      | none => (get_actions s).all (fun a => minCapB (result s p a) p t) := by
  unfold maxCapB
  rcases h : utility s p with _ | u
  · simp only [cap, h]
    apply all_congr_mem
    intro a ha
    have hc := countEmpty_result (p := p) ha
    simp only [minCapB, hc]
  · simp [cap, h]

theorem minCapB_eq (s : Board) (p : Player) (t : ℤ) :
    minCapB s p t =
      match utility s p with
      | some u => decide (u ≤ t)
      | none => (get_actions s).any (fun a => maxCapB (result s (other p) a) p t) := by
  unfold minCapB
  rcases h : utility s p with _ | u
  · simp only [cap, h]
    apply any_congr_mem
    intro a ha
    have hc := countEmpty_result (p := other p) ha
    simp only [maxCapB, hc]
  · simp [cap, h]

theorem frc_anti {t t' : ℤ} (h : t' ≤ t) :
    ∀ (fuel : ℕ) (im : Bool) (s : Board) (p : Player),
      frc fuel im s p t = true → frc fuel im s p t' = true := by
  intro fuel
  induction fuel with
  | zero => intro im s p hf; simp [frc] at hf
  | succ n ih =>
    intro im s p hf
    rcases h' : utility s p with _ | u
    · cases im
      · simp only [frc, h', List.all_eq_true] at hf ⊢
        intro a ha
        exact ih true _ p (hf a ha)
      · simp only [frc, h', List.any_eq_true] at hf ⊢
        obtain ⟨a, ha, hfa⟩ := hf
        exact ⟨a, ha, ih false _ p hfa⟩
    · simp only [frc, h', decide_eq_true_eq] at hf ⊢
      omega

theorem cap_mono {t t' : ℤ} (h : t ≤ t') :
    ∀ (fuel : ℕ) (im : Bool) (s : Board) (p : Player),
      cap fuel im s p t = true → cap fuel im s p t' = true := by
  intro fuel
  induction fuel with
  | zero => intro im s p hf; simp [cap] at hf
  | succ n ih =>
    intro im s p hf
    rcases h' : utility s p with _ | u
    · cases im
      · simp only [cap, h', List.any_eq_true] at hf ⊢
        obtain ⟨a, ha, hfa⟩ := hf
        exact ⟨a, ha, ih true _ p hfa⟩
      · simp only [cap, h', List.all_eq_true] at hf ⊢
        intro a ha
        exact ih false _ p (hf a ha)
    · simp only [cap, h', decide_eq_true_eq] at hf ⊢
      omega

/-! ### Helpers for the Monte-Carlo engine claims -/

theorem get_actions_nil_of_countEmpty_zero {b : Board}
    (h : countEmpty b = 0) : get_actions b = [] := by
  unfold countEmpty at h
  have hnot : Cell.e ∉ b := by
    intro hmem
    have := List.count_pos_iff.mpr hmem
    omega
  unfold get_actions
  rw [List.filter_eq_nil_iff]
  intro i hi
  simp only [decide_eq_true_eq]
  intro hcell
  apply hnot
  rw [List.mem_range] at hi
  have : b.getD i Cell.e = b[i] := List.getD_eq_getElem b Cell.e hi
  unfold cellAt at hcell
  rw [this] at hcell
  rw [← hcell]
  exact List.getElem_mem hi

theorem idxMaxAux_replicate (c : ℕ) :
    ∀ (k bi i : ℕ), idxMaxAux c bi i (List.replicate k c) = bi := by
  intro k
  induction k with
  | zero => intro bi i; rfl
  | succ n ih =>
    intro bi i
    simp only [List.replicate_succ, idxMaxAux, lt_irrefl, if_neg (lt_irrefl c)]
    exact ih bi (i + 1)

theorem foldl_bind_none {σ : Type} (g : ℕ → σ → Option σ) :
    ∀ l : List ℕ, l.foldl (fun ost i => ost.bind (fun st => g i st)) none = none := by
  intro l
  induction l with
  | nil => rfl
  | cons x xs ih => simpa using ih

/-! ### Claim theorems for the state model -/

/-- Claim C3 (status: code bug in the reference).  The claim says that
applying a move onto an occupied cell fails with an IllegalMove error
and never returns a board with the cell overwritten.  The code instead
takes its diagnostic branch (`illegal_move_logged`) and proceeds: at the
failing input (board with `x` at cell 0, player `o`, action 0) `result`
returns the corrupted board whose cell 0 was overwritten to `o`. -/
theorem claim_C3_illegal_move_overwrites :
    illegal_move_logged specBoardOcc 0 = true ∧
      result specBoardOcc Player.po 0 =
        [Cell.co, Cell.e, Cell.e, Cell.e, Cell.e, Cell.e, Cell.e, Cell.e, Cell.e] := by
  decide

/-- Claim C7: on every 9-cell board the priority-ordered `get_actions`
returns exactly the empty-cell indices, listed in the fixed order
center, corners descending, edges descending; on the empty board this
is `[4, 8, 6, 2, 0, 7, 5, 3, 1]`. -/
theorem claim_C7_priority_actions :
    (∀ b : Board, b.length = 9 →
      get_actions_pri b =
        [4, 8, 6, 2, 0, 7, 5, 3, 1].filter (fun i => decide (cellAt b i = Cell.e))) ∧
    get_actions_pri empty_board = [4, 8, 6, 2, 0, 7, 5, 3, 1] := by
  constructor
  · intro b hb
    have hperm1 : (get_actions_pri b).Perm (get_actions b) :=
      List.perm_insertionSort priGE (get_actions b)
    have hK : ([4, 8, 6, 2, 0, 7, 5, 3, 1] : List ℕ).Perm (List.range 9) := by decide
    have hga : get_actions b =
        (List.range 9).filter (fun i => decide (cellAt b i = Cell.e)) := by
      unfold get_actions
      rw [hb]
    have hperm2 :
        (([4, 8, 6, 2, 0, 7, 5, 3, 1] : List ℕ).filter
          (fun i => decide (cellAt b i = Cell.e))).Perm (get_actions b) := by
      rw [hga]
      exact hK.filter _
    have hsort1 : List.Sorted priGE (get_actions_pri b) :=
      List.sorted_insertionSort priGE (get_actions b)
    have hsortK : List.Sorted priGE [4, 8, 6, 2, 0, 7, 5, 3, 1] := by
      unfold List.Sorted
      decide
    have hsort2 : List.Sorted priGE
        (([4, 8, 6, 2, 0, 7, 5, 3, 1] : List ℕ).filter
          (fun i => decide (cellAt b i = Cell.e))) :=
      List.Pairwise.filter _ hsortK
    exact List.eq_of_perm_of_sorted (hperm1.trans hperm2.symm) hsort1 hsort2
  · decide

/-- Claim C8: on every terminal board the utility from x's perspective
is the negation of the utility from o's perspective, and both are 0 on
a draw. -/
theorem claim_C8_utility_perspective (b : Board) (h : is_terminal b = true) :
    ∃ u : ℤ, utility b Player.px = some u ∧ utility b Player.po = some (-u) ∧
      (check_win b = Winner.wd → u = 0) := by
  unfold is_terminal at h
  rcases hw : check_win b
  · exact ⟨1, by simp [utility, hw, winnerIs, other],
      by simp [utility, hw, winnerIs, other], by simp [hw]⟩
  · exact ⟨-1, by simp [utility, hw, winnerIs, other],
      by norm_num [utility, hw, winnerIs, other], by simp [hw]⟩
  · exact ⟨0, by simp [utility, hw, winnerIs, other],
      by simp [utility, hw, winnerIs, other], by simp⟩
  · rw [hw] at h; simp at h

/-- Witness for claim C8 at the all-x board. -/
theorem claim_C8_witness :
    ∃ u : ℤ, utility (List.replicate 9 Cell.cx) Player.px = some u ∧
      utility (List.replicate 9 Cell.cx) Player.po = some (-u) ∧
      (check_win (List.replicate 9 Cell.cx) = Winner.wd → u = 0) :=
  claim_C8_utility_perspective (List.replicate 9 Cell.cx) (by decide)

/-- Witness for claim C7 at the empty board. -/
theorem claim_C7_witness :
    get_actions_pri empty_board =
      [4, 8, 6, 2, 0, 7, 5, 3, 1].filter
        (fun i => decide (cellAt empty_board i = Cell.e)) :=
  claim_C7_priority_actions.1 empty_board (by decide)

/-! ### Claim theorems for the Monte-Carlo engine -/

/-- Counterexample to claim C5: the claim says `UCT_depth1` rejects
every budget `N ≤ 0` with an InvalidBudget error and does not return an
action.  At budget 0 on the empty board the code performs no validation,
runs zero playouts, and returns action 0 (the first empty cell). -/
theorem claim_C5_counterexample :
    UCT_depth1 empty_board 0 Player.px (0 : ℤ) (fun _ _ _ => 0) (fun _ _ => 0) =
      some 0 := by
  decide

/-- Claim C5, amended: `UCT_depth1` performs no budget validation.  For
every non-positive budget the loop body never runs and the engine
returns the first-listed legal action (`none`, i.e. the uncaught
`ValueError` of `max([])`, when the board has no empty cell); it never
raises an InvalidBudget error. -/
theorem claim_C5_amended_no_budget_validation {S : Type} [LinearOrder S]
    (b : Board) (p : Player) (N : ℤ) (inf : S) (ucb1 : ℤ → ℕ → ℕ → S)
    (rands : ℕ → ℕ → ℕ) (hN : N ≤ 0) :
    UCT_depth1 b N p inf ucb1 rands = (get_actions b).head? := by
  unfold UCT_depth1 UCT_core
  have h0 : N.toNat = 0 := by omega
  rw [h0]
  simp only [List.range_zero, List.foldl_nil, Option.some_bind]
  cases hga : get_actions b with
  | nil => simp [idxOfMax]
  | cons x xs =>
    simp only [List.length_cons, List.replicate_succ, idxOfMax,
      idxMaxAux_replicate, Option.map_some]
    rfl

/-- Witness for the amended claim C5 at budget `-3` on the empty board. -/
theorem claim_C5_witness :
    UCT_depth1 empty_board (-3) Player.px (0 : ℤ) (fun _ _ _ => 0) (fun _ _ => 0) =
      (get_actions empty_board).head? :=
  claim_C5_amended_no_budget_validation empty_board Player.px (-3) 0 _ _ (by decide)

/-- Claim C10: on a board with no empty cell (no legal action) and any
budget of at least one playout, `UCT_depth1` does not return an action:
its first selection applies `max` to the empty UCB1 list (and the final
step would apply `max` to the empty playout-count list), so the
`ValueError` branch is reached and the call produces no action. -/
theorem claim_C10_terminal_board_crash {S : Type} [LinearOrder S]
    (b : Board) (p : Player) (N : ℤ) (inf : S) (ucb1 : ℤ → ℕ → ℕ → S)
    (rands : ℕ → ℕ → ℕ) (hb : countEmpty b = 0) (hN : 1 ≤ N) :
    UCT_depth1 b N p inf ucb1 rands = none := by
  have hga : get_actions b = [] := get_actions_nil_of_countEmpty_zero hb
  unfold UCT_depth1 UCT_core
  rw [hga]
  obtain ⟨k, hk⟩ : ∃ k, N.toNat = k + 1 := ⟨N.toNat - 1, by omega⟩
  rw [hk, List.range_succ_eq_map]
  simp only [List.length_nil, List.replicate_zero, List.foldl_cons, Option.some_bind]
  have hstep : UCT_step b p inf ucb1 [] rands ⟨[], [], 0, []⟩ 0 = none := by
    simp [UCT_step, idxOfMax]
  rw [hstep, foldl_bind_none (fun i st => UCT_step b p inf ucb1 [] rands st i)]
  rfl

/-- Witness for claim C10 at the full drawn board with budget 1. -/
theorem claim_C10_witness :
    UCT_depth1 specBoardDraw 1 Player.px (0 : ℤ) (fun _ _ _ => 0) (fun _ _ => 0) =
      none :=
  claim_C10_terminal_board_crash specBoardDraw Player.px 1 0 _ _ (by decide) (by decide)

/-! ### Branch-resolved unfolding corollaries -/

theorem max_value_none (s : Board) (p : Player) (h : utility s p = none) :
    max_value s p =
      (get_actions s).foldl
        (mmMaxStep (fun a => min_value (result s p a) p)) ⟨⊥, none, 1⟩ := by
  rw [max_value_eq, h]

theorem max_value_some (s : Board) (p : Player) (u : ℤ)
    (h : utility s p = some u) : max_value s p = ⟨VInt u, none, 1⟩ := by
  rw [max_value_eq, h]

theorem min_value_none (s : Board) (p : Player) (h : utility s p = none) :
    min_value s p =
      (get_actions s).foldl
        (mmMinStep (fun a => max_value (result s (other p) a) p)) ⟨⊤, none, 1⟩ := by
  rw [min_value_eq, h]

theorem min_value_some (s : Board) (p : Player) (u : ℤ)
    (h : utility s p = some u) : min_value s p = ⟨VInt u, none, 1⟩ := by
  rw [min_value_eq, h]

theorem max_value_ab_none (s : Board) (p : Player) (alpha beta : V)
    (h : utility s p = none) :
    max_value_ab s p alpha beta =
      ((get_actions s).foldl
        (abMaxStep (fun al a => min_value_ab (result s p a) p al beta) beta)
        ⟨⟨⊥, none, 1⟩, alpha, false⟩).1 := by
  rw [max_value_ab_eq, h]

theorem max_value_ab_some (s : Board) (p : Player) (alpha beta : V) (u : ℤ)
    (h : utility s p = some u) :
    max_value_ab s p alpha beta = ⟨VInt u, none, 1⟩ := by
  rw [max_value_ab_eq, h]

theorem min_value_ab_none (s : Board) (p : Player) (alpha beta : V)
    (h : utility s p = none) :
    min_value_ab s p alpha beta =
      ((get_actions s).foldl
        (abMinStep (fun be a => max_value_ab (result s (other p) a) p alpha be) alpha)
        ⟨⟨⊤, none, 1⟩, beta, false⟩).1 := by
  rw [min_value_ab_eq, h]

theorem min_value_ab_some (s : Board) (p : Player) (alpha beta : V) (u : ℤ)
    (h : utility s p = some u) :
    min_value_ab s p alpha beta = ⟨VInt u, none, 1⟩ := by
  rw [min_value_ab_eq, h]

theorem maxForceB_none (s : Board) (p : Player) (t : ℤ) (h : utility s p = none) :
    maxForceB s p t = (get_actions s).any (fun a => minForceB (result s p a) p t) := by
  rw [maxForceB_eq, h]

theorem maxForceB_some (s : Board) (p : Player) (t u : ℤ) (h : utility s p = some u) :
    maxForceB s p t = decide (t ≤ u) := by
  rw [maxForceB_eq, h]

theorem minForceB_none (s : Board) (p : Player) (t : ℤ) (h : utility s p = none) :
    minForceB s p t =
      (get_actions s).all (fun a => maxForceB (result s (other p) a) p t) := by
  rw [minForceB_eq, h]

theorem minForceB_some (s : Board) (p : Player) (t u : ℤ) (h : utility s p = some u) :
    minForceB s p t = decide (t ≤ u) := by
  rw [minForceB_eq, h]

theorem maxCapB_none (s : Board) (p : Player) (t : ℤ) (h : utility s p = none) :
    maxCapB s p t = (get_actions s).all (fun a => minCapB (result s p a) p t) := by
  rw [maxCapB_eq, h]

theorem maxCapB_some (s : Board) (p : Player) (t u : ℤ) (h : utility s p = some u) :
    maxCapB s p t = decide (u ≤ t) := by
  rw [maxCapB_eq, h]

theorem minCapB_none (s : Board) (p : Player) (t : ℤ) (h : utility s p = none) :
    minCapB s p t =
      (get_actions s).any (fun a => maxCapB (result s (other p) a) p t) := by
  rw [minCapB_eq, h]

theorem minCapB_some (s : Board) (p : Player) (t u : ℤ) (h : utility s p = some u) :
    minCapB s p t = decide (u ≤ t) := by
  rw [minCapB_eq, h]

/-! ### The main minimax induction: values are finite, equal the
game-theoretic value under optimal play, and the kept move achieves it -/

theorem mm_main (c : ℕ) :
    ∀ (s : Board) (p : Player), countEmpty s = c →
      (∃ u : ℤ, (max_value s p).v = VInt u ∧
        maxForceB s p u = true ∧ maxCapB s p u = true) ∧
      (∃ u : ℤ, (min_value s p).v = VInt u ∧
        minForceB s p u = true ∧ minCapB s p u = true) ∧
      (utility s p = none →
        (max_value s p).m.isSome ∧ (min_value s p).m.isSome) ∧
      (utility s p ≠ none →
        (max_value s p).m = none ∧ (min_value s p).m = none) ∧
      (∀ a₀, (max_value s p).m = some a₀ →
        a₀ ∈ get_actions s ∧
          (min_value (result s p a₀) p).v = (max_value s p).v) ∧
      (∀ a₀, (min_value s p).m = some a₀ →
        a₀ ∈ get_actions s ∧
          (max_value (result s (other p) a₀) p).v = (min_value s p).v) := by
  induction c using Nat.strong_induction_on with
  | _ c IH =>
    intro s p hc
    rcases h : utility s p with _ | u
    · -- non-terminal state
      have hne : get_actions s ≠ [] := get_actions_ne_nil h
      have hcpos : 0 < c := hc ▸ countEmpty_pos h
      have IHc_min : ∀ a ∈ get_actions s, ∃ w : ℤ,
          (min_value (result s p a) p).v = VInt w ∧
            minForceB (result s p a) p w = true ∧
            minCapB (result s p a) p w = true := by
        intro a ha
        have hch : countEmpty (result s p a) = c - 1 := by
          have := countEmpty_result (p := p) ha
          omega
        exact (IH (c - 1) (by omega) _ p hch).2.1
      have IHc_max : ∀ a ∈ get_actions s, ∃ w : ℤ,
          (max_value (result s (other p) a) p).v = VInt w ∧
            maxForceB (result s (other p) a) p w = true ∧
            maxCapB (result s (other p) a) p w = true := by
        intro a ha
        have hch : countEmpty (result s (other p) a) = c - 1 := by
          have := countEmpty_result (p := other p) ha
          omega
        exact (IH (c - 1) (by omega) _ p hch).1
      have hM := max_value_none s p h
      have hN := min_value_none s p h
      have hvM : (max_value s p).v =
          (get_actions s).foldl
            (fun w a => max w ((min_value (result s p a) p).v)) ⊥ := by
        rw [hM, mm_max_fold_v]
      have hvN : (min_value s p).v =
          (get_actions s).foldl
            (fun w a => min w ((max_value (result s (other p) a) p).v)) ⊤ := by
        rw [hN, mm_min_fold_v]
      -- the fold value is attained by some child
      obtain ⟨x, hx, hvx⟩ : ∃ a ∈ get_actions s,
          (max_value s p).v = (min_value (result s p a) p).v := by
        rcases foldl_max_cases (fun a => (min_value (result s p a) p).v)
            (get_actions s) ⊥ with hcase | ⟨a, ha, hcase⟩
        · exfalso
          cases hga : get_actions s with
          | nil => exact hne hga
          | cons a0 rest =>
            obtain ⟨w, hw, _, _⟩ := IHc_min a0 (by rw [hga]; simp)
            have hle := foldl_max_le_of_mem
              (fun a => (min_value (result s p a) p).v) (get_actions s) ⊥ a0
              (by rw [hga]; simp)
            rw [hcase] at hle
            have hle' : (min_value (result s p a0) p).v ≤ ⊥ := hle
            rw [hw] at hle'
            exact absurd hle' (not_le.mpr (bot_lt_VInt w))
        · exact ⟨a, ha, by rw [hvM, hcase]⟩
      obtain ⟨y, hy, hvy⟩ : ∃ a ∈ get_actions s,
          (min_value s p).v = (max_value (result s (other p) a) p).v := by
        rcases foldl_min_cases (fun a => (max_value (result s (other p) a) p).v)
            (get_actions s) ⊤ with hcase | ⟨a, ha, hcase⟩
        · exfalso
          cases hga : get_actions s with
          | nil => exact hne hga
          | cons a0 rest =>
            obtain ⟨w, hw, _, _⟩ := IHc_max a0 (by rw [hga]; simp)
            have hle := foldl_min_le_of_mem
              (fun a => (max_value (result s (other p) a) p).v) (get_actions s) ⊤ a0
              (by rw [hga]; simp)
            rw [hcase] at hle
            have hle' : (⊤ : V) ≤ (max_value (result s (other p) a0) p).v := hle
            rw [hw] at hle'
            exact absurd hle' (not_le.mpr (VInt_lt_top w))
        · exact ⟨a, ha, by rw [hvN, hcase]⟩
      obtain ⟨uX, huX, hfX, hcX⟩ := IHc_min x hx
      obtain ⟨uY, huY, hfY, hcY⟩ := IHc_max y hy
      have hvMu : (max_value s p).v = VInt uX := by rw [hvx, huX]
      have hvNu : (min_value s p).v = VInt uY := by rw [hvy, huY]
      -- every child of the max node is bounded by the fold value
      have hchild_le : ∀ a ∈ get_actions s,
          (min_value (result s p a) p).v ≤ VInt uX := by
        intro a ha
        have := foldl_max_le_of_mem
          (fun a => (min_value (result s p a) p).v) (get_actions s) ⊥ a ha
        rw [← hvM, hvMu] at this
        exact this
      have hchild_ge : ∀ a ∈ get_actions s,
          VInt uY ≤ (max_value (result s (other p) a) p).v := by
        intro a ha
        have := foldl_min_le_of_mem
          (fun a => (max_value (result s (other p) a) p).v) (get_actions s) ⊤ a ha
        rw [← hvN, hvNu] at this
        exact this
      refine ⟨⟨uX, hvMu, ?_, ?_⟩, ⟨uY, hvNu, ?_, ?_⟩, ?_, ?_, ?_, ?_⟩
      · -- maxForceB: the attaining child forces uX
        rw [maxForceB_none s p uX h]
        exact List.any_eq_true.mpr ⟨x, hx, hfX⟩
      · -- maxCapB: every child is capped at its own value ≤ uX
        rw [maxCapB_none s p uX h]
        apply List.all_eq_true.mpr
        intro a ha
        obtain ⟨w, hw, _, hcw⟩ := IHc_min a ha
        have hwle : w ≤ uX := by
          have := hchild_le a ha
          rw [hw] at this
          exact VInt_le_iff.mp this
        unfold minCapB at hcw ⊢
        exact cap_mono hwle _ false _ p hcw
      · -- minForceB: every child still forces at least uY
        rw [minForceB_none s p uY h]
        apply List.all_eq_true.mpr
        intro a ha
        obtain ⟨w, hw, hfw, _⟩ := IHc_max a ha
        have hwge : uY ≤ w := by
          have := hchild_ge a ha
          rw [hw] at this
          exact VInt_le_iff.mp this
        unfold maxForceB at hfw ⊢
        exact frc_anti hwge _ true _ p hfw
      · -- minCapB: the attaining child caps at uY
        rw [minCapB_none s p uY h]
        exact List.any_eq_true.mpr ⟨y, hy, hcY⟩
      · -- non-terminal: a move is kept on both sides
        intro _
        constructor
        · rw [hM]
          apply mm_max_fold_some _ _ _ hne rfl
          intro a ha
          obtain ⟨w, hw, _, _⟩ := IHc_min a ha
          rw [hw]
          exact VInt_ne_bot w
        · rw [hN]
          apply mm_min_fold_some _ _ _ hne rfl
          intro a ha
          obtain ⟨w, hw, _, _⟩ := IHc_max a ha
          rw [hw]
          exact VInt_ne_top w
      · intro habs
        exact absurd rfl habs
      · -- the kept max move is legal and achieves the value
        intro a₀ hm
        rw [hM] at hm
        have := mm_max_fold_good (fun a => min_value (result s p a) p)
          (fun a => a ∈ get_actions s) (get_actions s) ⟨⊥, none, 1⟩
          (fun a ha => ha) (by intro a₀ h0; cases h0) a₀ hm
        refine ⟨this.1, ?_⟩
        rw [hM]
        exact this.2
      · -- the kept min move is legal and achieves the value
        intro a₀ hm
        rw [hN] at hm
        have := mm_min_fold_good (fun a => max_value (result s (other p) a) p)
          (fun a => a ∈ get_actions s) (get_actions s) ⟨⊤, none, 1⟩
          (fun a ha => ha) (by intro a₀ h0; cases h0) a₀ hm
        refine ⟨this.1, ?_⟩
        rw [hN]
        exact this.2
    · -- terminal state
      have hmax := max_value_some s p u h
      have hmin := min_value_some s p u h
      refine ⟨⟨u, by rw [hmax], ?_, ?_⟩, ⟨u, by rw [hmin], ?_, ?_⟩, ?_, ?_, ?_, ?_⟩
      · rw [maxForceB_some s p u u h]; simp
      · rw [maxCapB_some s p u u h]; simp
      · rw [minForceB_some s p u u h]; simp
      · rw [minCapB_some s p u u h]; simp
      · intro hnone
        cases hnone
      · intro _
        rw [hmax, hmin]
        exact ⟨rfl, rfl⟩
      · intro a₀ hm
        rw [hmax] at hm
        cases hm
      · intro a₀ hm
        rw [hmin] at hm
        cases hm

/-- Claim C2: the value returned by `minimax_search` is the true
game-theoretic value of the position under optimal play by both sides
(the maximizer can force at least it and the opponent can hold the
maximizer to at most it), and the returned action, when present, is a
legal action whose child position has exactly that game-theoretic value
with the opponent to move. -/
theorem claim_C2_minimax_optimal (b : Board) (p : Player) :
    ∃ u : ℤ, (minimax_search b p).v = VInt u ∧
      maxForceB b p u = true ∧ maxCapB b p u = true ∧
      ∀ a, (minimax_search b p).m = some a →
        a ∈ get_actions b ∧
          minForceB (result b p a) p u = true ∧
          minCapB (result b p a) p u = true := by
  obtain ⟨⟨u, hv, hf, hcap⟩, _, _, _, hmove, _⟩ := mm_main (countEmpty b) b p rfl
  refine ⟨u, hv, hf, hcap, ?_⟩
  intro a hm
  obtain ⟨ha, hchild⟩ := hmove a hm
  obtain ⟨_, ⟨w, hw, hfw, hcw⟩, _, _, _, _⟩ :=
    mm_main (countEmpty (result b p a)) (result b p a) p rfl
  have hww : VInt w = VInt u := by rw [← hw, hchild, hv]
  have hwu := VInt_inj hww
  subst hwu
  exact ⟨ha, hfw, hcw⟩

/-- Witness for claim C2 at the "x is about to win" board: the search
returns value 1 and move 2, which is legal and achieves value 1. -/
theorem claim_C2_witness :
    (minimax_search specBoardWin Player.px).m = some 2 ∧
      2 ∈ get_actions specBoardWin ∧
      maxForceB specBoardWin Player.px 1 = true ∧
      minForceB (result specBoardWin Player.px 2) Player.px 1 = true ∧
      minCapB (result specBoardWin Player.px 2) Player.px 1 = true := by
  obtain ⟨u, hv, hf, _, hmv⟩ := claim_C2_minimax_optimal specBoardWin Player.px
  have hv1 : (minimax_search specBoardWin Player.px).v = VInt 1 := by decide
  have hu : u = 1 := VInt_inj (by rw [← hv, hv1])
  subst hu
  have hm : (minimax_search specBoardWin Player.px).m = some 2 := by decide
  obtain ⟨hmem, hforce, hcap⟩ := hmv 2 hm
  exact ⟨hm, hmem, hf, hforce, hcap⟩

/-! ### Alpha-beta loop invariants: finite values, kept moves are legal -/

theorem ab_max_fold_pres (ce : V → ℕ → MRes) (beta : V) (L : List ℕ) :
    ∀ (l : List ℕ) (st : MRes × V × Bool), (∀ a ∈ l, a ∈ L) →
      (∀ a ∈ l, ∀ al, ∃ u : ℤ, (ce al a).v = VInt u) →
      ((∃ u : ℤ, st.1.v = VInt u) ∧ st.1.m.isSome ∧
        (∀ a₀, st.1.m = some a₀ → a₀ ∈ L)) →
      (∃ u : ℤ, (l.foldl (abMaxStep ce beta) st).1.v = VInt u) ∧
        (l.foldl (abMaxStep ce beta) st).1.m.isSome ∧
        (∀ a₀, (l.foldl (abMaxStep ce beta) st).1.m = some a₀ → a₀ ∈ L) := by
  intro l
  induction l with
  | nil => intro st _ _ hst; exact hst
  | cons x xs ih =>
    intro st hL hch hst
    simp only [List.foldl_cons]
    apply ih _ (fun a ha => hL a (by simp [ha])) (fun a ha => hch a (by simp [ha]))
    unfold abMaxStep
    split
    · exact hst
    · split
      · obtain ⟨u, hu⟩ := hch x (by simp) st.2.1
        refine ⟨⟨u, hu⟩, rfl, ?_⟩
        intro a₀ h0
        cases h0
        exact hL x (by simp)
      · exact hst

theorem ab_min_fold_pres (ce : V → ℕ → MRes) (alpha : V) (L : List ℕ) :
    ∀ (l : List ℕ) (st : MRes × V × Bool), (∀ a ∈ l, a ∈ L) →
      (∀ a ∈ l, ∀ be, ∃ u : ℤ, (ce be a).v = VInt u) →
      ((∃ u : ℤ, st.1.v = VInt u) ∧ st.1.m.isSome ∧
        (∀ a₀, st.1.m = some a₀ → a₀ ∈ L)) →
      (∃ u : ℤ, (l.foldl (abMinStep ce alpha) st).1.v = VInt u) ∧
        (l.foldl (abMinStep ce alpha) st).1.m.isSome ∧
        (∀ a₀, (l.foldl (abMinStep ce alpha) st).1.m = some a₀ → a₀ ∈ L) := by
  intro l
  induction l with
  | nil => intro st _ _ hst; exact hst
  | cons x xs ih =>
    intro st hL hch hst
    simp only [List.foldl_cons]
    apply ih _ (fun a ha => hL a (by simp [ha])) (fun a ha => hch a (by simp [ha]))
    unfold abMinStep
    split
    · exact hst
    · split
      · obtain ⟨u, hu⟩ := hch x (by simp) st.2.1
        refine ⟨⟨u, hu⟩, rfl, ?_⟩
        intro a₀ h0
        cases h0
        exact hL x (by simp)
      · exact hst

theorem ab_max_fold_start (ce : V → ℕ → MRes) (beta : V) (L : List ℕ)
    (l : List ℕ) (al : V) (hl : l ≠ []) (hL : ∀ a ∈ l, a ∈ L)
    (hch : ∀ a ∈ l, ∀ al', ∃ u : ℤ, (ce al' a).v = VInt u) :
    (∃ u : ℤ, ((l.foldl (abMaxStep ce beta) ⟨⟨⊥, none, 1⟩, al, false⟩).1).v = VInt u) ∧
      ((l.foldl (abMaxStep ce beta) ⟨⟨⊥, none, 1⟩, al, false⟩).1).m.isSome ∧
      (∀ a₀, ((l.foldl (abMaxStep ce beta) ⟨⟨⊥, none, 1⟩, al, false⟩).1).m = some a₀ →
        a₀ ∈ L) := by
  cases l with
  | nil => exact absurd rfl hl
  | cons x xs =>
    simp only [List.foldl_cons]
    apply ab_max_fold_pres ce beta L xs _
      (fun a ha => hL a (by simp [ha])) (fun a ha => hch a (by simp [ha]))
    obtain ⟨u, hu⟩ := hch x (by simp) al
    unfold abMaxStep
    simp only
    rw [if_neg (by simp)]
    have hlt : (⊥ : V) < (ce al x).v := by
      rw [hu]
      exact bot_lt_VInt u
    rw [if_pos hlt]
    refine ⟨⟨u, hu⟩, rfl, ?_⟩
    intro a₀ h0
    cases h0
    exact hL x (by simp)

theorem ab_min_fold_start (ce : V → ℕ → MRes) (alpha : V) (L : List ℕ)
    (l : List ℕ) (be : V) (hl : l ≠ []) (hL : ∀ a ∈ l, a ∈ L)
    (hch : ∀ a ∈ l, ∀ be', ∃ u : ℤ, (ce be' a).v = VInt u) :
    (∃ u : ℤ, ((l.foldl (abMinStep ce alpha) ⟨⟨⊤, none, 1⟩, be, false⟩).1).v = VInt u) ∧
      ((l.foldl (abMinStep ce alpha) ⟨⟨⊤, none, 1⟩, be, false⟩).1).m.isSome ∧
      (∀ a₀, ((l.foldl (abMinStep ce alpha) ⟨⟨⊤, none, 1⟩, be, false⟩).1).m = some a₀ →
        a₀ ∈ L) := by
  cases l with
  | nil => exact absurd rfl hl
  | cons x xs =>
    simp only [List.foldl_cons]
    apply ab_min_fold_pres ce alpha L xs _
      (fun a ha => hL a (by simp [ha])) (fun a ha => hch a (by simp [ha]))
    obtain ⟨u, hu⟩ := hch x (by simp) be
    unfold abMinStep
    simp only
    rw [if_neg (by simp)]
    have hlt : (ce be x).v < (⊤ : V) := by
      rw [hu]
      exact VInt_lt_top u
    rw [if_pos hlt]
    refine ⟨⟨u, hu⟩, rfl, ?_⟩
    intro a₀ h0
    cases h0
    exact hL x (by simp)

theorem ab_main (c : ℕ) :
    ∀ (s : Board) (p : Player) (alpha beta : V), countEmpty s = c →
      (∃ u : ℤ, (max_value_ab s p alpha beta).v = VInt u) ∧
      (∃ u : ℤ, (min_value_ab s p alpha beta).v = VInt u) ∧
      (utility s p = none →
        (max_value_ab s p alpha beta).m.isSome ∧
          (min_value_ab s p alpha beta).m.isSome) ∧
      (utility s p ≠ none →
        (max_value_ab s p alpha beta).m = none ∧
          (min_value_ab s p alpha beta).m = none) ∧
      (∀ a₀, (max_value_ab s p alpha beta).m = some a₀ → a₀ ∈ get_actions s) ∧
      (∀ a₀, (min_value_ab s p alpha beta).m = some a₀ → a₀ ∈ get_actions s) := by
  induction c using Nat.strong_induction_on with
  | _ c IH =>
    intro s p alpha beta hc
    rcases h : utility s p with _ | u
    · have hne : get_actions s ≠ [] := get_actions_ne_nil h
      have hcpos : 0 < c := hc ▸ countEmpty_pos h
      have hch_min : ∀ a ∈ get_actions s, ∀ al', ∃ w : ℤ,
          (min_value_ab (result s p a) p al' beta).v = VInt w := by
        intro a ha al'
        have hchc : countEmpty (result s p a) = c - 1 := by
          have := countEmpty_result (p := p) ha
          omega
        exact (IH (c - 1) (by omega) _ p al' beta hchc).2.1
      have hch_max : ∀ a ∈ get_actions s, ∀ be', ∃ w : ℤ,
          (max_value_ab (result s (other p) a) p alpha be').v = VInt w := by
        intro a ha be'
        have hchc : countEmpty (result s (other p) a) = c - 1 := by
          have := countEmpty_result (p := other p) ha
          omega
        exact (IH (c - 1) (by omega) _ p alpha be' hchc).1
      have hM := max_value_ab_none s p alpha beta h
      have hN := min_value_ab_none s p alpha beta h
      have hMfacts := ab_max_fold_start
        (fun al a => min_value_ab (result s p a) p al beta) beta
        (get_actions s) (get_actions s) alpha hne (fun a ha => ha) hch_min
      have hNfacts := ab_min_fold_start
        (fun be a => max_value_ab (result s (other p) a) p alpha be) alpha
        (get_actions s) (get_actions s) beta hne (fun a ha => ha) hch_max
      rw [← hM] at hMfacts
      rw [← hN] at hNfacts
      refine ⟨hMfacts.1, hNfacts.1, fun _ => ⟨hMfacts.2.1, hNfacts.2.1⟩,
        fun habs => absurd rfl habs, hMfacts.2.2, hNfacts.2.2⟩
    · have hmax := max_value_ab_some s p alpha beta u h
      have hmin := min_value_ab_some s p alpha beta u h
      refine ⟨⟨u, by rw [hmax]⟩, ⟨u, by rw [hmin]⟩, ?_, ?_, ?_, ?_⟩
      · intro hnone
        cases hnone
      · intro _
        rw [hmax, hmin]
        exact ⟨rfl, rfl⟩
      · intro a₀ hm
        rw [hmax] at hm
        cases hm
      · intro a₀ hm
        rw [hmin] at hm
        cases hm

/-- Claim C4: both engines return an absent move exactly on terminal
boards, and on every non-terminal board the returned move is present
and is a legal action (an empty-cell index) of that board. -/
theorem claim_C4_move_none_iff_terminal (b : Board) (p : Player) :
    ((minimax_search b p).m = none ↔ is_terminal b = true) ∧
    ((alpha_beta_search b p).m = none ↔ is_terminal b = true) ∧
    (is_terminal b = false →
      (∃ a, (minimax_search b p).m = some a ∧ a ∈ get_actions b) ∧
      (∃ a, (alpha_beta_search b p).m = some a ∧ a ∈ get_actions b)) := by
  have hterm : utility b p = none ↔ is_terminal b = false := by
    rw [utility_none_iff]
    unfold is_terminal
    cases check_win b <;> simp
  obtain ⟨_, _, hsomeM, hnoneM, hmoveM, _⟩ := mm_main (countEmpty b) b p rfl
  obtain ⟨_, _, hsomeA, hnoneA, hmoveA, _⟩ :=
    ab_main (countEmpty b) b p ⊥ ⊤ rfl
  constructor
  · constructor
    · intro hm
      by_contra hterm'
      have hf : is_terminal b = false := by
        cases hb : is_terminal b
        · rfl
        · exact absurd hb hterm'
      have := (hsomeM (hterm.mpr hf)).1
      have hm' : (max_value b p).m = none := hm
      rw [hm'] at this
      cases this
    · intro ht
      have : utility b p ≠ none := by
        intro h0
        rw [hterm.mp h0] at ht
        cases ht
      exact (hnoneM this).1
  constructor
  · constructor
    · intro hm
      by_contra hterm'
      have hf : is_terminal b = false := by
        cases hb : is_terminal b
        · rfl
        · exact absurd hb hterm'
      have := (hsomeA (hterm.mpr hf)).1
      have hm' : (max_value_ab b p ⊥ ⊤).m = none := hm
      rw [hm'] at this
      cases this
    · intro ht
      have : utility b p ≠ none := by
        intro h0
        rw [hterm.mp h0] at ht
        cases ht
      exact (hnoneA this).1
  · intro hf
    have hu : utility b p = none := hterm.mpr hf
    obtain ⟨a1, ha1⟩ := Option.isSome_iff_exists.mp (hsomeM hu).1
    obtain ⟨a2, ha2⟩ := Option.isSome_iff_exists.mp (hsomeA hu).1
    exact ⟨⟨a1, ha1, (hmoveM a1 ha1).1⟩, ⟨a2, ha2, hmoveA a2 ha2⟩⟩

/-- Witness for claim C4: on the full drawn board both engines return
no move; on the "x is about to win" board both return a legal move. -/
theorem claim_C4_witness :
    (minimax_search specBoardDraw Player.px).m = none ∧
      (alpha_beta_search specBoardDraw Player.px).m = none ∧
      (∃ a, (minimax_search specBoardWin Player.px).m = some a ∧
        a ∈ get_actions specBoardWin) ∧
      (∃ a, (alpha_beta_search specBoardWin Player.px).m = some a ∧
        a ∈ get_actions specBoardWin) := by
  have h1 := (claim_C4_move_none_iff_terminal specBoardDraw Player.px).1.mpr (by decide)
  have h2 := (claim_C4_move_none_iff_terminal specBoardDraw Player.px).2.1.mpr (by decide)
  have h3 := (claim_C4_move_none_iff_terminal specBoardWin Player.px).2.2 (by decide)
  exact ⟨h1, h2, h3.1, h3.2⟩

/-! ### Node-visit counts: the pruned loop visits a subset of children -/

theorem ab_max_fold_cnt (ce : V → ℕ → MRes) (beta : V) (mc : ℕ → ℕ) :
    ∀ (l : List ℕ) (st : MRes × V × Bool),
      (∀ a ∈ l, ∀ al, (ce al a).cnt ≤ mc a) →
      ((l.foldl (abMaxStep ce beta) st).1).cnt ≤ st.1.cnt + (l.map mc).sum := by
  intro l
  induction l with
  | nil => intro st _; simp
  | cons x xs ih =>
    intro st hch
    simp only [List.foldl_cons, List.map_cons, List.sum_cons]
    have hcnt : (abMaxStep ce beta st x).1.cnt ≤ st.1.cnt + mc x := by
      unfold abMaxStep
      split
      · omega
      · split
        · simp only
          have := hch x (by simp) st.2.1
          omega
        · simp only
          have := hch x (by simp) st.2.1
          omega
    have := ih (abMaxStep ce beta st x) (fun a ha al => hch a (by simp [ha]) al)
    omega

theorem ab_min_fold_cnt (ce : V → ℕ → MRes) (alpha : V) (mc : ℕ → ℕ) :
    ∀ (l : List ℕ) (st : MRes × V × Bool),
      (∀ a ∈ l, ∀ be, (ce be a).cnt ≤ mc a) →
      ((l.foldl (abMinStep ce alpha) st).1).cnt ≤ st.1.cnt + (l.map mc).sum := by
  intro l
  induction l with
  | nil => intro st _; simp
  | cons x xs ih =>
    intro st hch
    simp only [List.foldl_cons, List.map_cons, List.sum_cons]
    have hcnt : (abMinStep ce alpha st x).1.cnt ≤ st.1.cnt + mc x := by
      unfold abMinStep
      split
      · omega
      · split
        · simp only
          have := hch x (by simp) st.2.1
          omega
        · simp only
          have := hch x (by simp) st.2.1
          omega
    have := ih (abMinStep ce alpha st x) (fun a ha be => hch a (by simp [ha]) be)
    omega

theorem ab_cnt_le (c : ℕ) :
    ∀ (s : Board) (p : Player) (alpha beta : V), countEmpty s = c →
      (max_value_ab s p alpha beta).cnt ≤ (max_value s p).cnt ∧
      (min_value_ab s p alpha beta).cnt ≤ (min_value s p).cnt := by
  induction c using Nat.strong_induction_on with
  | _ c IH =>
    intro s p alpha beta hc
    rcases h : utility s p with _ | u
    · have hcpos : 0 < c := hc ▸ countEmpty_pos h
      constructor
      · rw [max_value_ab_none s p alpha beta h, max_value_none s p h,
          mm_max_fold_cnt]
        apply ab_max_fold_cnt
        intro a ha al
        have hchc : countEmpty (result s p a) = c - 1 := by
          have := countEmpty_result (p := p) ha
          omega
        exact (IH (c - 1) (by omega) _ p al beta hchc).2
      · rw [min_value_ab_none s p alpha beta h, min_value_none s p h,
          mm_min_fold_cnt]
        apply ab_min_fold_cnt
        intro a ha be
        have hchc : countEmpty (result s (other p) a) = c - 1 := by
          have := countEmpty_result (p := other p) ha
          omega
        exact (IH (c - 1) (by omega) _ p alpha be hchc).1
    · rw [max_value_ab_some s p alpha beta u h, max_value_some s p u h,
        min_value_ab_some s p alpha beta u h, min_value_some s p u h]
      exact ⟨le_refl 1, le_refl 1⟩

/-- Claim C6: on every board and player, the number of nodes visited by
the alpha-beta engine (the threaded counter, reset at the top-level
call and incremented once per `max_value_ab`/`min_value_ab` call) is at
most the number of nodes visited by exhaustive minimax on the same
input. -/
theorem claim_C6_ab_count_le_minimax (b : Board) (p : Player) :
    (alpha_beta_search b p).cnt ≤ (minimax_search b p).cnt :=
  (ab_cnt_le (countEmpty b) b p ⊥ ⊤ rfl).1

/-! ### The Knuth-Moore fail-soft contract of the alpha-beta loop -/

theorem ab_max_fold_done (ce : V → ℕ → MRes) (beta : V) :
    ∀ (l : List ℕ) (st : MRes × V × Bool), st.2.2 = true →
      l.foldl (abMaxStep ce beta) st = st := by
  intro l
  induction l with
  | nil => intro st _; rfl
  | cons x xs ih =>
    intro st hdone
    simp only [List.foldl_cons]
    rw [show abMaxStep ce beta st x = st from by unfold abMaxStep; rw [if_pos hdone]]
    exact ih st hdone

theorem ab_min_fold_done (ce : V → ℕ → MRes) (alpha : V) :
    ∀ (l : List ℕ) (st : MRes × V × Bool), st.2.2 = true →
      l.foldl (abMinStep ce alpha) st = st := by
  intro l
  induction l with
  | nil => intro st _; rfl
  | cons x xs ih =>
    intro st hdone
    simp only [List.foldl_cons]
    rw [show abMinStep ce alpha st x = st from by unfold abMinStep; rw [if_pos hdone]]
    exact ih st hdone

theorem km_max_loop (ce : V → ℕ → MRes) (mv : ℕ → V) (beta : V) :
    ∀ (l : List ℕ) (acc : MRes) (A0 : V),
      (∀ a ∈ l, ∀ al, al < beta → KMrel al beta (ce al a).v (mv a)) →
      A0 < beta → acc.v < beta →
      KMrel A0 beta
        ((l.foldl (abMaxStep ce beta) ⟨acc, max A0 acc.v, false⟩).1).v
        (l.foldl (fun w a => max w (mv a)) acc.v) := by
  intro l
  induction l with
  | nil =>
    intro acc A0 _ _ _
    exact ⟨fun _ => le_refl _, fun _ _ => rfl, fun _ => le_refl _⟩
  | cons x xs ih =>
    intro acc A0 hch hA hacc
    have hal : max A0 acc.v < beta := max_lt hA hacc
    obtain ⟨ca, cb, cc⟩ := hch x (by simp) (max A0 acc.v) hal
    simp only [List.foldl_cons]
    rcases lt_or_le acc.v (ce (max A0 acc.v) x).v with hlt | hnlt
    · -- strict improvement: the move and alpha are updated
      have hstep : abMaxStep ce beta ⟨acc, max A0 acc.v, false⟩ x =
          ⟨⟨(ce (max A0 acc.v) x).v, some x, acc.cnt + (ce (max A0 acc.v) x).cnt⟩,
            max (max A0 acc.v) (ce (max A0 acc.v) x).v,
            decide (beta ≤ (ce (max A0 acc.v) x).v)⟩ := by
        unfold abMaxStep
        rw [if_neg (by simp), if_pos hlt]
      rw [hstep]
      rcases le_or_lt beta (ce (max A0 acc.v) x).v with hbeta | hbeta
      · -- beta cutoff: the loop returns at once
        rw [show decide (beta ≤ (ce (max A0 acc.v) x).v) = true from
          decide_eq_true hbeta]
        rw [ab_max_fold_done ce beta xs _ rfl]
        refine ⟨?_, ?_, ?_⟩
        · intro hle
          exact absurd hle (not_le.mpr (lt_of_lt_of_le hA hbeta))
        · intro _ hltb
          exact absurd hltb (not_lt.mpr hbeta)
        · intro _
          calc (ce (max A0 acc.v) x).v ≤ mv x := cc hbeta
            _ ≤ max acc.v (mv x) := le_max_right _ _
            _ ≤ xs.foldl (fun w a => max w (mv a)) (max acc.v (mv x)) :=
                foldl_max_init_le _ _ _
      · -- no cutoff: continue with the raised alpha
        rw [show decide (beta ≤ (ce (max A0 acc.v) x).v) = false from
          decide_eq_false (not_le.mpr hbeta)]
        have halpha : max (max A0 acc.v) (ce (max A0 acc.v) x).v =
            max A0 (ce (max A0 acc.v) x).v := by
          rw [max_assoc]
          congr 1
          exact max_eq_right (le_of_lt hlt)
        rw [halpha]
        have ih' := ih
          ⟨(ce (max A0 acc.v) x).v, some x, acc.cnt + (ce (max A0 acc.v) x).cnt⟩ A0
          (fun a ha => hch a (by simp [ha])) hA hbeta
        dsimp only at ih'
        rcases lt_or_le (max A0 acc.v) (ce (max A0 acc.v) x).v with hral | hral
        · -- the child value lies inside the window: it is exact
          have hexact : (ce (max A0 acc.v) x).v = mv x := cb hral hbeta
          have hT : max acc.v (mv x) = (ce (max A0 acc.v) x).v := by
            rw [← hexact]
            exact max_eq_right (le_of_lt hlt)
          rw [hT]
          exact ih'
        · -- fail-low child: its returned value is only an upper bound
          have hrA0 : (ce (max A0 acc.v) x).v ≤ A0 := by
            rcases le_max_iff.mp hral with hcase | hcase
            · exact hcase
            · exact absurd hcase (not_le.mpr hlt)
          have hmvle : mv x ≤ (ce (max A0 acc.v) x).v := ca hral
          have habs1 := foldl_max_absorb mv xs (ce (max A0 acc.v) x).v ⊥
          rw [max_eq_left bot_le] at habs1
          have habs2 := foldl_max_absorb mv xs (max acc.v (mv x)) ⊥
          rw [max_eq_left bot_le] at habs2
          have hinit_le : max acc.v (mv x) ≤ (ce (max A0 acc.v) x).v :=
            max_le (le_of_lt hlt) hmvle
          refine ⟨?_, ?_, ?_⟩
          · intro hle
            exact le_trans
              (foldl_max_mono mv xs _ _ hinit_le) (ih'.1 hle)
          · intro h1 h2
            have he := ih'.2.1 h1 h2
            rw [habs1] at he
            have hS : (xs.foldl (abMaxStep ce beta)
                ⟨⟨(ce (max A0 acc.v) x).v, some x,
                  acc.cnt + (ce (max A0 acc.v) x).cnt⟩,
                  max A0 (ce (max A0 acc.v) x).v, false⟩).1.v =
                xs.foldl (fun w a => max w (mv a)) ⊥ := by
              rcases max_cases (ce (max A0 acc.v) x).v
                  (xs.foldl (fun w a => max w (mv a)) ⊥) with ⟨hm, _⟩ | ⟨hm, _⟩
              · rw [hm] at he
                rw [he] at h1
                exact absurd h1 (not_lt.mpr hrA0)
              · rw [hm] at he
                exact he
            rw [habs2, hS]
            have hSgt : max acc.v (mv x) ≤
                xs.foldl (fun w a => max w (mv a)) ⊥ := by
              rw [← hS]
              exact le_trans hinit_le (le_trans hrA0 (le_of_lt h1))
            exact (max_eq_right hSgt).symm
          · intro hbe
            have hle' := ih'.2.2 hbe
            rw [habs1] at hle'
            rcases le_max_iff.mp hle' with hcase | hcase
            · exfalso
              have : beta ≤ A0 := le_trans hbe (le_trans hcase hrA0)
              exact absurd hA (not_lt.mpr this)
            · rw [habs2]
              exact le_trans hcase (le_max_right _ _)
    · -- no improvement: state value and alpha unchanged
      have hstep : abMaxStep ce beta ⟨acc, max A0 acc.v, false⟩ x =
          ⟨⟨acc.v, acc.m, acc.cnt + (ce (max A0 acc.v) x).cnt⟩,
            max A0 acc.v, decide (beta ≤ acc.v)⟩ := by
        unfold abMaxStep
        rw [if_neg (by simp), if_neg (not_lt.mpr hnlt)]
      rw [hstep]
      rw [show decide (beta ≤ acc.v) = false from
        decide_eq_false (not_le.mpr hacc)]
      have hmvle : mv x ≤ acc.v :=
        le_trans (ca (le_trans hnlt (le_max_right A0 acc.v))) hnlt
      have hT : max acc.v (mv x) = acc.v := max_eq_left hmvle
      rw [hT]
      have ih' := ih ⟨acc.v, acc.m, acc.cnt + (ce (max A0 acc.v) x).cnt⟩ A0
        (fun a ha => hch a (by simp [ha])) hA hacc
      dsimp only at ih'
      exact ih'

theorem km_min_loop (ce : V → ℕ → MRes) (mv : ℕ → V) (alpha : V) :
    ∀ (l : List ℕ) (acc : MRes) (B0 : V),
      (∀ a ∈ l, ∀ be, alpha < be → KMrel alpha be (ce be a).v (mv a)) →
      alpha < B0 → alpha < acc.v →
      KMrel alpha B0
        ((l.foldl (abMinStep ce alpha) ⟨acc, min B0 acc.v, false⟩).1).v
        (l.foldl (fun w a => min w (mv a)) acc.v) := by
  intro l
  induction l with
  | nil =>
    intro acc B0 _ _ _
    exact ⟨fun _ => le_refl _, fun _ _ => rfl, fun _ => le_refl _⟩
  | cons x xs ih =>
    intro acc B0 hch hA hacc
    have hbe : alpha < min B0 acc.v := lt_min hA hacc
    obtain ⟨ca, cb, cc⟩ := hch x (by simp) (min B0 acc.v) hbe
    simp only [List.foldl_cons]
    rcases lt_or_le (ce (min B0 acc.v) x).v acc.v with hlt | hnlt
    · -- strict improvement: the move and beta are updated
      have hstep : abMinStep ce alpha ⟨acc, min B0 acc.v, false⟩ x =
          ⟨⟨(ce (min B0 acc.v) x).v, some x, acc.cnt + (ce (min B0 acc.v) x).cnt⟩,
            min (min B0 acc.v) (ce (min B0 acc.v) x).v,
            decide ((ce (min B0 acc.v) x).v ≤ alpha)⟩ := by
        unfold abMinStep
        rw [if_neg (by simp), if_pos hlt]
      rw [hstep]
      rcases le_or_lt (ce (min B0 acc.v) x).v alpha with hcut | hcut
      · -- alpha cutoff: the loop returns at once
        rw [show decide ((ce (min B0 acc.v) x).v ≤ alpha) = true from
          decide_eq_true hcut]
        rw [ab_min_fold_done ce alpha xs _ rfl]
        refine ⟨?_, ?_, ?_⟩
        · intro _
          calc xs.foldl (fun w a => min w (mv a)) (min acc.v (mv x)) ≤
                min acc.v (mv x) := foldl_min_le_init _ _ _
            _ ≤ mv x := min_le_right _ _
            _ ≤ (ce (min B0 acc.v) x).v := ca hcut
        · intro h1 _
          exact absurd h1 (not_lt.mpr hcut)
        · intro hge
          exact absurd (le_trans hge hcut) (not_le.mpr hA)
      · -- no cutoff: continue with the lowered beta
        rw [show decide ((ce (min B0 acc.v) x).v ≤ alpha) = false from
          decide_eq_false (not_le.mpr hcut)]
        have hbeta' : min (min B0 acc.v) (ce (min B0 acc.v) x).v =
            min B0 (ce (min B0 acc.v) x).v := by
          rw [min_assoc]
          congr 1
          exact min_eq_right (le_of_lt hlt)
        rw [hbeta']
        have ih' := ih
          ⟨(ce (min B0 acc.v) x).v, some x, acc.cnt + (ce (min B0 acc.v) x).cnt⟩ B0
          (fun a ha => hch a (by simp [ha])) hA hcut
        dsimp only at ih'
        rcases lt_or_le (ce (min B0 acc.v) x).v (min B0 acc.v) with hral | hral
        · -- the child value lies inside the window: it is exact
          have hexact : (ce (min B0 acc.v) x).v = mv x := cb hcut hral
          have hT : min acc.v (mv x) = (ce (min B0 acc.v) x).v := by
            rw [← hexact]
            exact min_eq_right (le_of_lt hlt)
          rw [hT]
          exact ih'
        · -- fail-high child: its returned value is only a lower bound
          have hrB0 : B0 ≤ (ce (min B0 acc.v) x).v := by
            rcases min_le_iff.mp hral with hcase | hcase
            · exact hcase
            · exact absurd hcase (not_le.mpr hlt)
          have hmvge : (ce (min B0 acc.v) x).v ≤ mv x := cc hral
          have habs1 := foldl_min_absorb mv xs (ce (min B0 acc.v) x).v ⊤
          rw [min_eq_left le_top] at habs1
          have habs2 := foldl_min_absorb mv xs (min acc.v (mv x)) ⊤
          rw [min_eq_left le_top] at habs2
          have hinit_ge : (ce (min B0 acc.v) x).v ≤ min acc.v (mv x) :=
            le_min (le_of_lt hlt) hmvge
          refine ⟨?_, ?_, ?_⟩
          · intro hle
            have hle' := ih'.1 hle
            rw [habs1] at hle'
            rcases min_le_iff.mp hle' with hcase | hcase
            · exfalso
              have : B0 ≤ alpha := le_trans hrB0 (le_trans hcase hle)
              exact absurd hA (not_lt.mpr this)
            · rw [habs2]
              exact le_trans (min_le_right _ _) hcase
          · intro h1 h2
            have he := ih'.2.1 h1 h2
            rw [habs1] at he
            have hS : (xs.foldl (abMinStep ce alpha)
                ⟨⟨(ce (min B0 acc.v) x).v, some x,
                  acc.cnt + (ce (min B0 acc.v) x).cnt⟩,
                  min B0 (ce (min B0 acc.v) x).v, false⟩).1.v =
                xs.foldl (fun w a => min w (mv a)) ⊤ := by
              rcases min_cases (ce (min B0 acc.v) x).v
                  (xs.foldl (fun w a => min w (mv a)) ⊤) with ⟨hm, _⟩ | ⟨hm, _⟩
              · rw [hm] at he
                rw [he] at h2
                exact absurd h2 (not_lt.mpr hrB0)
              · rw [hm] at he
                exact he
            rw [habs2, hS]
            have hSlt : xs.foldl (fun w a => min w (mv a)) ⊤ ≤
                min acc.v (mv x) := by
              rw [← hS]
              exact le_trans (le_of_lt h2) (le_trans hrB0 hinit_ge)
            exact (min_eq_right hSlt).symm
          · intro hge
            have hle' := ih'.2.2 hge
            rw [habs1] at hle'
            rw [habs2]
            exact le_trans hle' (min_le_min hinit_ge (le_refl _))
    · -- no improvement: state value and beta unchanged
      have hstep : abMinStep ce alpha ⟨acc, min B0 acc.v, false⟩ x =
          ⟨⟨acc.v, acc.m, acc.cnt + (ce (min B0 acc.v) x).cnt⟩,
            min B0 acc.v, decide (acc.v ≤ alpha)⟩ := by
        unfold abMinStep
        rw [if_neg (by simp), if_neg (not_lt.mpr hnlt)]
      rw [hstep]
      rw [show decide (acc.v ≤ alpha) = false from
        decide_eq_false (not_le.mpr hacc)]
      have hmvge : acc.v ≤ mv x :=
        le_trans hnlt (cc (le_trans (min_le_right B0 acc.v) hnlt))
      have hT : min acc.v (mv x) = acc.v := min_eq_left hmvge
      rw [hT]
      have ih' := ih ⟨acc.v, acc.m, acc.cnt + (ce (min B0 acc.v) x).cnt⟩ B0
        (fun a ha => hch a (by simp [ha])) hA hacc
      dsimp only at ih'
      exact ih'

theorem km_node (c : ℕ) :
    ∀ (s : Board) (p : Player) (alpha beta : V), countEmpty s = c →
      alpha < beta →
      KMrel alpha beta (max_value_ab s p alpha beta).v (max_value s p).v ∧
      KMrel alpha beta (min_value_ab s p alpha beta).v (min_value s p).v := by
  induction c using Nat.strong_induction_on with
  | _ c IH =>
    intro s p alpha beta hc hab
    rcases h : utility s p with _ | u
    · have hcpos : 0 < c := hc ▸ countEmpty_pos h
      constructor
      · rw [max_value_ab_none s p alpha beta h, max_value_none s p h,
          mm_max_fold_v]
        have hinit : (⟨(⟨⊥, none, 1⟩ : MRes), alpha, false⟩ : MRes × V × Bool) =
            ⟨⟨⊥, none, 1⟩, max alpha (⊥ : V), false⟩ := by
          rw [max_eq_left bot_le]
        rw [hinit]
        apply km_max_loop
        · intro a ha al hal
          have hchc : countEmpty (result s p a) = c - 1 := by
            have := countEmpty_result (p := p) ha
            omega
          exact (IH (c - 1) (by omega) _ p al beta hchc hal).2
        · exact hab
        · exact lt_of_le_of_lt bot_le hab
      · rw [min_value_ab_none s p alpha beta h, min_value_none s p h,
          mm_min_fold_v]
        have hinit : (⟨(⟨⊤, none, 1⟩ : MRes), beta, false⟩ : MRes × V × Bool) =
            ⟨⟨⊤, none, 1⟩, min beta (⊤ : V), false⟩ := by
          rw [min_eq_left le_top]
        rw [hinit]
        apply km_min_loop
        · intro a ha be hbe
          have hchc : countEmpty (result s (other p) a) = c - 1 := by
            have := countEmpty_result (p := other p) ha
            omega
          exact (IH (c - 1) (by omega) _ p alpha be hchc hbe).1
        · exact hab
        · exact lt_of_lt_of_le hab le_top
    · rw [max_value_ab_some s p alpha beta u h, max_value_some s p u h,
        min_value_ab_some s p alpha beta u h, min_value_some s p u h]
      exact ⟨⟨fun _ => le_refl _, fun _ _ => rfl, fun _ => le_refl _⟩,
        ⟨fun _ => le_refl _, fun _ _ => rfl, fun _ => le_refl _⟩⟩

/-- Claim C1: for every board and player the value proven by the
alpha-beta engine equals the value proven by the exhaustive minimax
engine on the same input — pruning never changes the proven value. -/
theorem claim_C1_alphabeta_equals_minimax (b : Board) (p : Player) :
    (alpha_beta_search b p).v = (minimax_search b p).v := by
  obtain ⟨ka, kb, kc⟩ := (km_node (countEmpty b) b p ⊥ ⊤ rfl bot_lt_top).1
  show (max_value_ab b p ⊥ ⊤).v = (max_value b p).v
  rcases le_or_lt (max_value_ab b p ⊥ ⊤).v ⊥ with h1 | h1
  · have h1' : (max_value_ab b p ⊥ ⊤).v = ⊥ := le_bot_iff.mp h1
    have h2 := ka h1
    rw [h1'] at h2
    have h2' : (max_value b p).v = ⊥ := le_bot_iff.mp h2
    rw [h1', h2']
  · rcases lt_or_le (max_value_ab b p ⊥ ⊤).v ⊤ with h2 | h2
    · exact kb h1 h2
    · have h2' : (max_value_ab b p ⊥ ⊤).v = ⊤ := top_le_iff.mp h2
      have h3 := kc h2
      rw [h2'] at h3
      have h3' : (max_value b p).v = ⊤ := top_le_iff.mp h3
      rw [h2', h3']

/-! ### Termination bounds: playout length and Monte-Carlo iterations -/

theorem getD_mod_mem (l : List ℕ) (x : ℕ) (hl : l ≠ []) :
    l.getD (x % l.length) 0 ∈ l := by
  have hlen : 0 < l.length := List.length_pos.mpr hl
  have hmod : x % l.length < l.length := Nat.mod_lt x hlen
  rw [List.getD_eq_getElem l 0 hmod]
  exact List.getElem_mem hmod

theorem playoutLoop_steps :
    ∀ (fuel : ℕ) (s : Board) (cur p : Player) (rand : ℕ → ℕ) (k : ℕ),
      countEmpty s < fuel → (playoutLoop fuel s cur p rand k).2 ≤ countEmpty s := by
  intro fuel
  induction fuel with
  | zero => intro s cur p rand k h; exact absurd h (Nat.not_lt_zero _)
  | succ f ih =>
    intro s cur p rand k h
    rcases hu : utility s p with _ | u
    · have hne : get_actions s ≠ [] := get_actions_ne_nil hu
      have hmem := getD_mod_mem (get_actions s) (rand k) hne
      have hdec := countEmpty_result (p := cur) hmem
      simp only [playoutLoop, hu]
      have := ih
        (result s cur ((get_actions s).getD (rand k % (get_actions s).length) 0))
        (other cur) p rand (k + 1) (by omega)
      omega
    · simp only [playoutLoop, hu]
      omega

theorem playout_moves_le (b : Board) (p : Player) (a : ℕ) (rand : ℕ → ℕ)
    (hb : b.length = 9) (ha : a ∈ get_actions b) :
    (playout b a p rand).2 ≤ 9 := by
  have hdec := countEmpty_result (p := p) ha
  have hle : countEmpty b ≤ 9 := by
    have := countEmpty_le_length b
    omega
  simp only [playout]
  have := playoutLoop_steps (countEmpty (result b p a) + 1) (result b p a)
    (other p) p rand 0 (by omega)
  omega

theorem idxOfMax_of_ne_nil {S : Type} [LinearOrder S] (l : List S)
    (hl : l ≠ []) : ∃ j, idxOfMax l = some j := by
  cases l with
  | nil => exact absurd rfl hl
  | cons x xs => exact ⟨_, rfl⟩

theorem UCT_core_sims {S : Type} [LinearOrder S] (b : Board) (p : Player)
    (inf : S) (ucb1 : ℤ → ℕ → ℕ → S) (rands : ℕ → ℕ → ℕ)
    (hne : get_actions b ≠ []) :
    ∀ k : ℕ, ∃ st : UCTSt S,
      (List.range k).foldl
        (fun ost i => ost.bind
          (fun st => UCT_step b p inf ucb1 (get_actions b) rands st i))
        (some ⟨List.replicate (get_actions b).length 0,
               List.replicate (get_actions b).length 0, 0,
               List.replicate (get_actions b).length inf⟩) = some st ∧
      st.ucb.length = (get_actions b).length ∧ st.np = k := by
  intro k
  induction k with
  | zero => exact ⟨_, rfl, by simp, rfl⟩
  | succ n ih =>
    obtain ⟨st, hst, hlen, hnp⟩ := ih
    rw [List.range_succ, List.foldl_append, hst]
    simp only [List.foldl_cons, List.foldl_nil, Option.some_bind]
    have hucb_ne : st.ucb ≠ [] := by
      intro h0
      rw [h0] at hlen
      have hpos := List.length_pos.mpr hne
      simp at hlen
      omega
    obtain ⟨j, hj⟩ := idxOfMax_of_ne_nil st.ucb hucb_ne
    simp only [UCT_step, hj]
    refine ⟨_, rfl, ?_, ?_⟩
    · simp
    · simp [hnp]

/-- Claim C9: every top-level engine call terminates.  The minimax and
alpha-beta recursion measure (number of empty cells) strictly decreases
at each recursive call, is at most 9 on a 9-cell board, and any fuel of
at least 10 yields the canonical search result (the recursion bottoms
out); a playout applies at most 9 moves on a 9-cell board; and the
Monte-Carlo engine performs exactly `N` budget iterations whenever a
legal action exists. -/
theorem claim_C9_termination :
    (∀ (b : Board) (p : Player) (a : ℕ), a ∈ get_actions b →
      countEmpty (result b p a) < countEmpty b) ∧
    (∀ b : Board, b.length = 9 → countEmpty b ≤ 9) ∧
    (∀ (b : Board) (p : Player) (fuel : ℕ), b.length = 9 → 10 ≤ fuel →
      mmx fuel true b p = minimax_search b p ∧
      abx fuel true b p ⊥ ⊤ = alpha_beta_search b p) ∧
    (∀ (b : Board) (p : Player) (a : ℕ) (rand : ℕ → ℕ), b.length = 9 →
      a ∈ get_actions b → (playout b a p rand).2 ≤ 9) ∧
    (∀ (S : Type) (_instS : LinearOrder S) (b : Board) (p : Player) (N : ℤ)
      (inf : S) (ucb1 : ℤ → ℕ → ℕ → S) (rands : ℕ → ℕ → ℕ),
      get_actions b ≠ [] → 0 ≤ N →
      ∃ st : UCTSt S, UCT_core b N p inf ucb1 rands = some st ∧
        (st.np : ℤ) = N) := by
  refine ⟨?_, ?_, ?_, ?_, ?_⟩
  · intro b p a ha
    exact countEmpty_result_lt ha
  · intro b hb
    have := countEmpty_le_length b
    omega
  · intro b p fuel hb hf
    have hle : countEmpty b ≤ 9 := by
      have := countEmpty_le_length b
      omega
    constructor
    · rw [mmx_fuel_indep (countEmpty b) b p true fuel rfl (by omega)]
      rfl
    · rw [abx_fuel_indep (countEmpty b) b p true ⊥ ⊤ fuel rfl (by omega)]
      rfl
  · intro b p a rand hb ha
    exact playout_moves_le b p a rand hb ha
  · intro S _instS b p N inf ucb1 rands hne hN
    obtain ⟨st, hst, _, hnp⟩ := UCT_core_sims b p inf ucb1 rands hne N.toNat
    refine ⟨st, ?_, ?_⟩
    · unfold UCT_core
      exact hst
    · rw [hnp]
      omega

/-- Witness for claim C9 at concrete inputs: a move from the empty
board shrinks the measure; fuel 12 reproduces both canonical searches;
a playout from the empty board applies at most 9 moves; and a budget-5
Monte-Carlo run performs exactly 5 playouts. -/
theorem claim_C9_witness :
    countEmpty (result empty_board Player.px 4) < countEmpty empty_board ∧
      countEmpty empty_board ≤ 9 ∧
      mmx 12 true specBoardLoss Player.px = minimax_search specBoardLoss Player.px ∧
      (playout empty_board 0 Player.px (fun k => k)).2 ≤ 9 ∧
      ∃ st : UCTSt ℤ,
        UCT_core empty_board 5 Player.px 0 (fun _ _ _ => 0) (fun _ _ => 0) =
          some st ∧ (st.np : ℤ) = 5 := by
  refine ⟨?_, ?_, ?_, ?_, ?_⟩
  · exact claim_C9_termination.1 empty_board Player.px 4 (by decide)
  · exact claim_C9_termination.2.1 empty_board (by decide)
  · exact (claim_C9_termination.2.2.1 specBoardLoss Player.px 12 (by decide)
      (by decide)).1
  · exact claim_C9_termination.2.2.2.1 empty_board Player.px 0 (fun k => k)
      (by decide) (by decide)
  · exact claim_C9_termination.2.2.2.2 ℤ inferInstance empty_board Player.px 5 0
      (fun _ _ _ => 0) (fun _ _ => 0) (by decide) (by decide)

end TicTacToe
